import Mathlib

/-!
# Verification of the tethne streaming record-parser framework

Shallow embedding of `tethne/readers/base.py` (the `IterParser` driver and its
`FTParser`, `XMLParser` and `RDFParser` backends) and of the legacy
`tethne/readers.py::parse_wos` prelude, together with theorems settling the
frozen claims about the parser's merge policy, selective parsing, boundary
counting, presence discipline, fail-fast error handling and termination.

Python values flowing through the parser are modelled by `Value`; an Entry
(`dobject` with dynamic attributes) is an insertion-ordered association list;
exceptions are modelled with `Except String`.
-/

/-- A Python value as it occurs in the parser: `None`, a string, an `int`,
a `float` (kept as its source text), or a list of values. -/
inductive Value where
  | none : Value
  | s (v : String) : Value
  | i (v : Int) : Value
  | f (v : String) : Value
  | list (vs : List Value) : Value

/-- Python truthiness test (`not data`).  Note: a Python float `0.0` is also
falsy; the `.f` case below is a simplification that no result depends on,
since no claim input carries a float. -/
def pyFalsy : Value → Bool
  | Value.none => true
  | Value.s v => v == ""
  | Value.i n => n == 0
  | Value.f _ => false
  | Value.list vs => vs.isEmpty

/-- Whether a value is a Python list (`type(value) is list`). -/
def valueIsList : Value → Bool
  | Value.list _ => true
  | _ => false

/-- Whether a value is a Python `str`. -/
def valueIsStr : Value → Bool
  | Value.s _ => true
  | _ => false

/-- Python membership test `value in [None, '']` used by the merge policy. -/
def valueIsNoneOrEmpty : Value → Bool
  | Value.none => true
  | Value.s v => v == ""
  | _ => false

mutual
/-- Approximation of Python `repr` for values, used only when `str` is applied
to a list. -/
def pyRepr : Value → String
  | Value.none => "None"
  | Value.s v => "\x27" ++ v ++ "\x27"
  | Value.i n => toString n
  | Value.f v => v
  | Value.list vs => "[" ++ String.intercalate ", " (pyReprList vs) ++ "]"

def pyReprList : List Value → List String
  | [] => []
  | v :: vs => pyRepr v :: pyReprList vs
end

/-- Python `unicode(value)` / `str(value)`. -/
def pyStr : Value → String
  | Value.none => "None"
  | Value.s v => v
  | Value.i n => toString n
  | Value.f v => v
  | Value.list vs => "[" ++ String.intercalate ", " (pyReprList vs) ++ "]"

/-- One bibliographic record under construction: a `dobject` whose dynamic
attributes are modelled as an insertion-ordered association list with unique
keys. -/
abbrev Entry := List (String × Value)

/-- `getattr(entry, tag)` as an `Option` (`hasattr` is `isSome`): first
match in the association list (keys are unique by construction). -/
def Entry.getattr? : Entry → String → Option Value
  | [], _ => Option.none
  | p :: rest, k => if p.1 == k then some p.2 else Entry.getattr? rest k

/-- `setattr(entry, tag, value)`: replace the value in place when the
attribute exists (Python keeps the original insertion position), otherwise
append the new attribute at the end. -/
def Entry.setattr : Entry → String → Value → Entry
  | [], k, v => [(k, v)]
  | p :: rest, k, v =>
      if p.1 == k then (k, v) :: rest else p :: Entry.setattr rest k v

/-- Python `str.strip()`: remove whitespace from both ends. -/
def pyStripStr (s : String) : String :=
  String.mk ((((s.toList.dropWhile Char.isWhitespace).reverse.dropWhile
    Char.isWhitespace)).reverse)

/-- Python `str.replace('\r', '')`. -/
def removeCR (s : String) : String :=
  String.mk (s.toList.filter (fun c => c ≠ '\x0d'))

/-- Auxiliary: decimal digits to a natural number. -/
def digitsToNat (ds : List Char) : Nat :=
  ds.foldl (fun n c => 10 * n + (c.toNat - '0'.toNat)) 0

/-- Python `int(s)`: strips surrounding whitespace, accepts an optional sign
followed by decimal digits, otherwise raises `ValueError` (`Option.none`).
(Underscore digit grouping accepted by Python 3.6+ is not modelled; no input
below uses it.) -/
def pyInt? (s : String) : Option Int :=
  match (pyStripStr s).toList with
  | [] => Option.none
  | '+' :: ds =>
      if ds ≠ [] ∧ ds.all Char.isDigit then some (Int.ofNat (digitsToNat ds)) else Option.none
  | '-' :: ds =>
      if ds ≠ [] ∧ ds.all Char.isDigit then some (-(Int.ofNat (digitsToNat ds))) else Option.none
  | ds =>
      if ds.all Char.isDigit then some (Int.ofNat (digitsToNat ds)) else Option.none

/-- Whether Python `float(s)` would succeed on a string that `int` rejected:
an optional sign, then digits with exactly one decimal point and at least one
digit.  (Exponent notation and `inf`/`nan` are not modelled; no input below
uses them.) -/
def pyFloatLike (s : String) : Bool :=
  let body :=
    match (pyStripStr s).toList with
    | '+' :: ds => ds
    | '-' :: ds => ds
    | ds => ds
  body.any Char.isDigit &&
    body.all (fun c => c.isDigit || c == '.') &&
    (body.count '.') == 1

/-- `_cast(value)` (readers/base.py lines 24-36): try `int`, then `float`,
else return the string unchanged.  A float result is kept as its source
text. -/
def _cast (s : String) : Value :=
  match pyInt? s with
  | some n => Value.i n
  | Option.none => if pyFloatLike s then Value.f (pyStripStr s) else Value.s s

/-! ## The shared parse driver (`IterParser`) -/

/-- Per-subclass configuration of the iterating driver: the tag registry
(`tags`, a dict from raw tag to canonical field name, modelled as an
insertion-ordered association list with unique keys), the concatenation
fields, the optional `handle_<tag>` value transforms, the Unicode NFKD
normalization (an opaque library call, kept as a parameter), the
entry-boundary predicates, and whether `new_entry` runs `postprocess_entry`
first (the `XMLParser` override). -/
structure IterCfg where
  tags : List (String × String)
  concat_fields : List String
  handler : String → Option (Value → Value)
  nfkd : String → String
  is_start : Option String → Bool
  is_end : Option String → Bool
  postprocess_on_new_entry : Bool

/-- Mutable parser state: the accumulated entries (`self.data`, the last one
active), the set of field names seen (`self.fields`), and `self.last_tag`. -/
structure PState where
  entries : List Entry
  fields : List String
  lastTag : Option String

/-- `BaseParser.new_entry`: append a fresh empty entry. -/
def BaseParser.new_entry (st : PState) : PState :=
  { st with entries := st.entries ++ [[]] }

/-- `BaseParser.postprocess_entry`: the classes in the repository register no
`postprocess_<field>` hooks, so the loop body only evaluates
`hasattr(self.data[-1], field)` for each recorded field — which raises
`IndexError` when `self.data` is empty — and otherwise changes nothing. -/
def BaseParser.postprocess_entry (st : PState) : Except String PState :=
  if !st.fields.isEmpty && st.entries.isEmpty then
    Except.error "IndexError: list index out of range"
  else Except.ok st

/-- `self.new_entry()` as invoked by the driver: `XMLParser.new_entry` runs
`postprocess_entry` before appending (readers/base.py lines 266-271), the
other backends append directly. -/
def newEntryStep (cfg : IterCfg) (st : PState) : Except String PState :=
  if cfg.postprocess_on_new_entry then
    match BaseParser.postprocess_entry st with
    | Except.error e => Except.error e
    | Except.ok st => Except.ok (BaseParser.new_entry st)
  else Except.ok (BaseParser.new_entry st)

/-- Lines 138-142 of `IterParser.handle`: entry-boundary handling — finalize
on an end tag, then allocate a fresh entry on a start tag. -/
def boundaryStep (cfg : IterCfg) (st : PState) (tag : Option String) :
    Except String PState :=
  match (if cfg.is_end tag then BaseParser.postprocess_entry st else Except.ok st) with
  | Except.error e => Except.error e
  | Except.ok st => if cfg.is_start tag then newEntryStep cfg st else Except.ok st

/-- Python truthiness of the tag (`not tag`): `None` or the empty string. -/
def pyTagFalsy : Option String → Bool
  | Option.none => true
  | some t => t == ""

/-- Line 147 of `IterParser.handle`:
`getattr(self, 'parse_only', None) and tag not in self.parse_only` —
the filter applies only when the attribute is set AND the set is non-empty
(an empty set is falsy). -/
def filterDrop (parseOnly : Option (List String)) (t : String) : Bool :=
  match parseOnly with
  | some po => !po.isEmpty && !po.contains t
  | Option.none => false

/-- Lines 151-153 of `IterParser.handle`: strings are NFKD-normalized and
carriage returns removed; other value types pass through. -/
def normalizeStep (cfg : IterCfg) (data : Value) : Value :=
  match data with
  | Value.s v => Value.s (removeCR (cfg.nfkd v))
  | d => d

/-- Lines 159-160 of `IterParser.handle`: rename the field via the registry
when the raw tag is a key of `self.tags`. -/
def resolveTag (tags : List (String × String)) (t : String) : String :=
  match tags.lookup t with
  | some r => r
  | Option.none => t

/-- Lines 162-174 of `IterParser.handle`, the merge policy: compute the new
value of the field from its existing value (if any) and the incoming data.
Concatenation fields join with a single space via `' '.join([value,
unicode(data)])`, which raises `TypeError` when the existing value is not a
string; lists append; a non-empty scalar is promoted to a two-element list; a
`None`/`''` scalar is left as it is (the final `setattr` rewrites the old
value). -/
def mergeValue (concat_fields : List String) (tag : String)
    (old : Option Value) (data : Value) : Except String Value :=
  match old with
  | some value =>
      if concat_fields.contains tag then
        match value with
        | Value.s sv => Except.ok (Value.s (sv ++ " " ++ pyStr data))
        | _ => Except.error "TypeError: sequence item 0: expected str instance"
      else
        match value with
        | Value.list vs => Except.ok (Value.list (vs ++ [data]))
        | v =>
            if valueIsNoneOrEmpty v then Except.ok v
            else Except.ok (Value.list [v, data])
  | Option.none => Except.ok data

/-- Lines 162-175 of `IterParser.handle`: merge the incoming data into the
entry under the resolved field name and store the result with `setattr`. -/
def mergeField (concat_fields : List String) (e : Entry) (tag : String)
    (data : Value) : Except String Entry :=
  match mergeValue concat_fields tag (Entry.getattr? e tag) data with
  | Except.error err => Except.error err
  | Except.ok v => Except.ok (Entry.setattr e tag v)

/-- `self.fields.add(tag)`. -/
def addField (fields : List String) (t : String) : List String :=
  if fields.contains t then fields else fields ++ [t]

/-- Lines 155-157 of `IterParser.handle`: apply the registered
`handle_<tag>` transform when one exists. -/
def handlerStep (cfg : IterCfg) (t : String) (data : Value) : Value :=
  match cfg.handler t with
  | some h => h data
  | Option.none => data

/-- `IterParser.handle` (readers/base.py lines 128-176): boundary handling,
the skip of falsy data or tags, the `parse_only` filter, generic
normalization, the optional per-tag handler, field renaming, and the merge
into the active entry `self.data[-1]`. -/
def IterParser.handle (cfg : IterCfg) (parseOnly : Option (List String))
    (st : PState) (tag : Option String) (data : Value) : Except String PState :=
  match boundaryStep cfg st tag with
  | Except.error e => Except.error e
  | Except.ok st =>
    if pyFalsy data || pyTagFalsy tag then Except.ok st
    else
      match tag with
      | Option.none => Except.ok st
      | some t =>
        if filterDrop parseOnly t then Except.ok st
        else
          match st.entries.getLast? with
          | Option.none => Except.error "IndexError: list index out of range"
          | some e =>
            match mergeField cfg.concat_fields e (resolveTag cfg.tags t)
                (handlerStep cfg t (normalizeStep cfg data)) with
            | Except.error err => Except.error err
            | Except.ok e' =>
              Except.ok { st with entries := st.entries.dropLast ++ [e'],
                                  fields := addField st.fields (resolveTag cfg.tags t) }

/-- Lines 104-107 of `IterParser.parse`: invert the registry
(`{v: k for k, v in self.tags.items()}`, later pairs overwrite earlier ones)
and look a canonical field name up in the inverted dict. -/
def tagLookup (tags : List (String × String)) (field : String) : Option String :=
  ((tags.reverse).find? (fun p => p.2 == field)).map (fun p => p.1)

/-- `set([tag_lookup.get(field) for field in parse_only if field in
tag_lookup])`: the guard keeps exactly the names present in the inverted
dict, so this is the raw tags of the requested canonical names. -/
def computeParseOnly (tags : List (String × String))
    (fieldsOfInterest : List String) : List String :=
  fieldsOfInterest.filterMap (tagLookup tags)

/-- The main loop of `IterParser.parse` (lines 109-117) specialised to a
backend whose `next()` yields the given (tag, data) pairs and then reports
end of input: handle each pair, record `last_tag`, and finalize the last
entry at EOF. -/
def IterParser.runLoop (cfg : IterCfg) (parseOnly : Option (List String)) :
    List (Option String × Value) → PState → Except String PState
  | [], st => BaseParser.postprocess_entry st
  | (tag, data) :: rest, st =>
      match IterParser.handle cfg parseOnly st tag data with
      | Except.error e => Except.error e
      | Except.ok st => IterParser.runLoop cfg parseOnly rest { st with lastTag := tag }

/-- Driver state after `__init__` and `start()`: one fresh active entry. -/
def initState : PState := { entries := [[]], fields := [], lastTag := Option.none }

/-- Lines 102-107 of `IterParser.parse`: the `self.parse_only` attribute is
set to the computed set of raw tags when the `parse_only` argument is truthy
(a non-empty set); otherwise the attribute stays unset. -/
def parseOnlyAttr (tags : List (String × String))
    (parse_only : Option (List String)) : Option (List String) :=
  match parse_only with
  | some s => if s ≠ [] then some (computeParseOnly tags s) else Option.none
  | Option.none => Option.none

/-- `IterParser.parse` (readers/base.py lines 98-117) over a backend yielding
the given pairs. -/
def IterParser.parse (cfg : IterCfg) (parse_only : Option (List String))
    (events : List (Option String × Value)) : Except String (List Entry) :=
  match IterParser.runLoop cfg (parseOnlyAttr cfg.tags parse_only) events initState with
  | Except.error e => Except.error e
  | Except.ok st => Except.ok st.entries

/-! ## The incremental XML backend (`XMLParser`) -/

/-- `XMLParser` subclass configuration (readers/base.py lines 246-316). -/
structure XMLCfg where
  entry_element : String
  tags : List (String × String)
  concat_fields : List String
  handler : String → Option (Value → Value)
  nfkd : String → String

/-- The driver configuration induced by an `XMLParser` subclass: both entry
boundaries are the close of the entry element, and `new_entry` runs
`postprocess_entry` first. -/
def XMLCfg.toIter (c : XMLCfg) : IterCfg :=
  { tags := c.tags
    concat_fields := c.concat_fields
    handler := c.handler
    nfkd := c.nfkd
    is_start := fun t => t == some c.entry_element
    is_end := fun t => t == some c.entry_element
    postprocess_on_new_entry := true }

/-- `XMLParser.next` lines 286-289: the data is the element's text, stripped
when truthy (`None` and `''` pass through unchanged). -/
def XMLParser.toValue (text : Option String) : Value :=
  match text with
  | Option.none => Value.none
  | some t => if t ≠ "" then Value.s (pyStripStr t) else Value.s ""

/-- `_fast_iter(self.iterator, self.next, ...)`: call `XMLParser.next` (which
invokes `handle` and records `last_tag`) once per element end event, in
document order.  Each event is the element's tag and text. -/
def XMLParser.runChildren (cfg : IterCfg) (parseOnly : Option (List String)) :
    List (String × Option String) → PState → Except String PState
  | [], st => Except.ok st
  | (tag, text) :: rest, st =>
      match IterParser.handle cfg parseOnly st (some tag) (XMLParser.toValue text) with
      | Except.error e => Except.error e
      | Except.ok st => XMLParser.runChildren cfg parseOnly rest { st with lastTag := some tag }

/-- Lines 301-306 of `XMLParser.parse`: the computed set is the raw tags of
the requested names UNION the requested names themselves. -/
def xmlParseOnlyAttr (tags : List (String × String))
    (parse_only : Option (List String)) : Option (List String) :=
  match parse_only with
  | some s => if s ≠ [] then some (computeParseOnly tags s ++ s) else Option.none
  | Option.none => Option.none

/-- `XMLParser.parse` (readers/base.py lines 297-312): `start()` allocates
the first entry; after the element walk the trailing entry is deleted when
it has no attributes. -/
def XMLParser.parse (cfg : XMLCfg) (parse_only : Option (List String))
    (events : List (String × Option String)) : Except String (List Entry) :=
  match newEntryStep cfg.toIter { entries := [], fields := [], lastTag := Option.none } with
  | Except.error e => Except.error e
  | Except.ok st0 =>
    match XMLParser.runChildren cfg.toIter (xmlParseOnlyAttr cfg.tags parse_only) events st0 with
    | Except.error e => Except.error e
    | Except.ok st =>
      match st.entries.getLast? with
      | Option.none => Except.error "IndexError: list index out of range"
      | some e =>
          Except.ok (if e.isEmpty then st.entries.dropLast else st.entries)

/-! ## The field-tagged text backend (`FTParser`) -/

/-- `FTParser` subclass configuration (readers/base.py lines 179-243),
with the class-attribute defaults `start_tag = 'ST'`, `end_tag = 'ED'`. -/
structure FTCfg where
  start_tag : String := "ST"
  end_tag : String := "ED"
  tags : List (String × String) := []
  concat_fields : List String := []
  handler : String → Option (Value → Value) := fun _ => Option.none
  nfkd : String → String := id

/-- The driver configuration induced by an `FTParser` subclass. -/
def FTCfg.toIter (c : FTCfg) : IterCfg :=
  { tags := c.tags
    concat_fields := c.concat_fields
    handler := c.handler
    nfkd := c.nfkd
    is_start := fun t => t == some c.start_tag
    is_end := fun t => t == some c.end_tag
    postprocess_on_new_entry := false }

/-- Whether a character matches the regex class `\w` (ASCII approximation of
`[a-zA-Z0-9_]`; no input below carries non-ASCII tag positions). -/
def isWordChar (c : Char) : Bool := c.isAlphanum || c == '_'

/-- `re.match('([A-Z]{2}|[C][1])\W(.*)', line)` applied to one line of
content (the trailing newline produced by `readline` is implicit: for a
two-character line the newline itself matches `\W` and the data is empty).
Returns the tag and the rest of the line after the separator character. -/
def matchTag (c : String) : Option (String × String) :=
  match c.toList with
  | a :: b :: rest =>
      if (a.isUpper && b.isUpper) || (a == 'C' && b == '1') then
        match rest with
        | [] => some (String.mk [a, b], "")
        | w :: ds => if isWordChar w then Option.none else some (String.mk [a, b], String.mk ds)
      else Option.none
  | _ => Option.none

/-- `FTParser.next` (readers/base.py lines 215-239) over the remaining lines
of the file (each line given without its trailing newline): skip blank lines,
report EOF on exhaustion, otherwise tokenize the line — a regex match yields
its tag, a continuation line inherits `self.last_tag` and is stripped — and
numerically coerce the data with `_cast`.  Returns
`((at_eof, tag, data), remaining lines)`. -/
def FTParser.next (lastTag : Option String) :
    List String → ((Bool × Option String × Value) × List String)
  | [] => ((true, Option.none, Value.none), [])
  | line :: rest =>
      if line = "" then FTParser.next lastTag rest
      else
        match matchTag line with
        | some (t, d) => ((false, some t, _cast d), rest)
        | Option.none => ((false, lastTag, _cast (pyStripStr line)), rest)

/-- `IterParser.start` as executed by `FTParser` (lines 119-126): repeatedly
call `next()` until `current_tag` equals the start tag.  During this scan
`last_tag` is still `None`, so continuation lines set `current_tag` to `None`
and never match.  `Option.none` models the case where the file holds no
start-tag line: `next()` then keeps returning `(None, None)` at EOF without
updating `current_tag`, so the `while` loop never exits. -/
def FTParser.start (startTag : String) : List String → Option (List String)
  | [] => Option.none
  | line :: rest =>
      if line = "" then FTParser.start startTag rest
      else
        match matchTag line with
        | some (t, _) => if t == startTag then some rest else FTParser.start startTag rest
        | Option.none => FTParser.start startTag rest

/-- The main loop of `IterParser.parse` running over `FTParser.next`: fetch
the next line, stop (finalizing the last entry) at EOF, otherwise handle the
pair and record `last_tag` — which `FTParser.next` reads back to resolve
continuation lines.  Fuel bounds the recursion; every non-EOF step consumes
at least one line, so `lines.length + 1` fuel is never exhausted. -/
def FTParser.runLoop (cfg : IterCfg) (parseOnly : Option (List String)) :
    Nat → List String → PState → Except String PState
  | 0, _, st => BaseParser.postprocess_entry st
  | Nat.succ fuel, lines, st =>
      match FTParser.next st.lastTag lines with
      | ((true, _, _), _) => BaseParser.postprocess_entry st
      | ((false, tag, data), rest) =>
          match IterParser.handle cfg parseOnly st tag data with
          | Except.error e => Except.error e
          | Except.ok st => FTParser.runLoop cfg parseOnly fuel rest { st with lastTag := tag }

/-- `FTParser` construction plus `IterParser.parse` (lines 89-117): `start()`
scans to the first start-tag line and allocates the first entry (a file with
no start-tag line makes `start()` loop forever — reported as an error here,
with no entries ever produced); then the main loop consumes the remaining
lines. -/
def FTParser.parse (cfg : FTCfg) (parse_only : Option (List String))
    (lines : List String) : Except String (List Entry) :=
  match FTParser.start cfg.start_tag lines with
  | Option.none => Except.error "start() never terminates: no start-tag line"
  | some rest =>
    match FTParser.runLoop cfg.toIter (parseOnlyAttr cfg.tags parse_only)
        (rest.length + 1) rest initState with
    | Except.error e => Except.error e
    | Except.ok st => Except.ok st.entries

/-- `FTParser.open` (readers/base.py lines 199-213): raise `IOError` when the
path does not exist, otherwise detect the file encoding and open a decoding
buffer.  The filesystem is modelled as `Option (List String)`:
`Option.none` stands for a missing or unreadable path; encoding detection is
transparent on the decoded line list. -/
def FTParser.open (file : Option (List String)) : Except String (List String) :=
  match file with
  | Option.none => Except.error "IOError: No such path"
  | some lines => Except.ok lines

/-! ## The triple backend (`RDFParser`) -/

/-- `RDFParser` subclass configuration (readers/base.py lines 319-378).
`meta_elements` is the list of `(field name, predicate reference)` pairs; the
class default is the empty list.  `tags` is the renaming dict read by
`RDFParser.handle` (supplied by subclasses or keyword arguments). -/
structure RDFCfg where
  entry_elements : List String := ["Document"]
  meta_elements : List (String × String) := []
  concat_fields : List String := []
  tags : List (String × String) := []
  handler : String → Option (Value → Value) := fun _ => Option.none

/-- The merge policy of `RDFParser.handle` (lines 365-375): identical to the
driver's merge except that the join is `' '.join([value, data])` — both the
existing value and the incoming data must already be strings. -/
def RDFParser.mergeValue (concat_fields : List String) (tag : String)
    (old : Option Value) (data : Value) : Except String Value :=
  match old with
  | some value =>
      if concat_fields.contains tag then
        match value, data with
        | Value.s sv, Value.s sd => Except.ok (Value.s (sv ++ " " ++ sd))
        | _, _ => Except.error "TypeError: sequence item: expected str instance"
      else
        match value with
        | Value.list vs => Except.ok (Value.list (vs ++ [data]))
        | v =>
            if valueIsNoneOrEmpty v then Except.ok v
            else Except.ok (Value.list [v, data])
  | Option.none => Except.ok data

/-- Lines 356-359 of `RDFParser.handle`: the optional `handle_<tag>`
transform. -/
def rdfHandlerStep (cfg : RDFCfg) (t : String) (data : Value) : Value :=
  match cfg.handler t with
  | some h => h data
  | Option.none => data

/-- `RDFParser.handle` (readers/base.py lines 355-378): optional handler,
rename via `self.tags`, and — only when the data is not `None` — merge into
the active entry and record the field. -/
def RDFParser.handle (cfg : RDFCfg) (st : PState) (tag : String)
    (data : Value) : Except String PState :=
  match rdfHandlerStep cfg tag data with
  | Value.none => Except.ok st
  | data =>
    match st.entries.getLast? with
    | Option.none => Except.error "IndexError: list index out of range"
    | some e =>
      match RDFParser.mergeValue cfg.concat_fields (resolveTag cfg.tags tag)
          (Entry.getattr? e (resolveTag cfg.tags tag)) data with
      | Except.error err => Except.error err
      | Except.ok v =>
          Except.ok { st with
            entries := st.entries.dropLast ++
              [Entry.setattr e (resolveTag cfg.tags tag) v],
            fields := addField st.fields (resolveTag cfg.tags tag) }

/-- One iteration of the main loop of `RDFParser.parse` (lines 345-351):
allocate a new entry, scan the subject's triples — a predicate found in
`meta_refs` maps (via its first occurrence, `meta_refs.index(p)`) to a field
that is handled — then run post-processing. -/
def RDFParser.parseEntry (cfg : RDFCfg) (graph : List (String × String × Value))
    (subject : String) (st : PState) : Except String PState :=
  match (graph.filter (fun tr => tr.1 == subject)).foldlM
      (fun st tr =>
        match cfg.meta_elements.find? (fun me => me.2 == tr.2.1) with
        | some me => RDFParser.handle cfg st me.1 tr.2.2
        | Option.none => Except.ok st) (BaseParser.new_entry st) with
  | Except.error e => Except.error e
  | Except.ok st => BaseParser.postprocess_entry st

/-- `RDFParser.parse` (readers/base.py lines 337-353) over the queue of
subjects collected by `open()` and the graph's triples.  Its first statement
`meta_fields, meta_refs = zip(*self.meta_elements)` unpacks `zip()` of no
arguments when `meta_elements` is empty, raising
`ValueError: not enough values to unpack` before any entry is produced. -/
def RDFParser.parse (cfg : RDFCfg) (subjects : List String)
    (graph : List (String × String × Value)) : Except String (List Entry) :=
  if cfg.meta_elements.isEmpty then
    Except.error "ValueError: not enough values to unpack"
  else
    match subjects.foldlM (fun st s => RDFParser.parseEntry cfg graph s st)
        (PState.mk [] [] Option.none) with
    | Except.error e => Except.error e
    | Except.ok st => Except.ok st.entries

/-! ## The legacy Web-of-Science reader prelude (`readers.py::parse_wos`) -/

/-- The two error classes raised by `parse_wos`: `IOError` and the module's
`DataError`. -/
inductive WosError where
  | ioError (msg : String) : WosError
  | dataError (msg : String) : WosError

/-- Python slicing `s[a:b]` (clamped, never raising). -/
def pySlice (s : String) (a b : Nat) : String :=
  String.mk ((s.toList.drop a).take (b - a))

/-- Python slicing `s[a:]`. -/
def pySliceFrom (s : String) (a : Nat) : String :=
  String.mk (s.toList.drop a)

/-- Modelled from the spec: `data.new_wos_dict()` — the module `data`
(imported as `ds`) is not part of the given sources.  Per the module
docstring of readers.py, a fresh record dict has its declared keys preset to
`None`; under `parse_wos`'s `except (KeyError, TypeError, ...)` assignment
both a missing key (KeyError) and a `None` value (TypeError on `+=`) lead to
the same plain assignment, so the fresh dict is modelled as empty. -/
def new_wos_dict : Entry := []

/-- WoS tags whose multi-line continuations are joined with a newline rather
than a space (readers.py line 221). -/
def wosNewlineKeys : List String := ["AU", "AF", "CR", "C1"]

/-- The per-line field assignment of the `parse_wos` main loop (readers.py
lines 218-229): append to an existing string value with the key-dependent
separator; a missing key (KeyError) is created with the plain value. -/
def wosAssign (d : Entry) (field_tag : String) (rest : String) : Entry :=
  match Entry.getattr? d field_tag with
  | some (Value.s old) =>
      if wosNewlineKeys.contains field_tag then
        Entry.setattr d field_tag (Value.s (old ++ "\x0a" ++ rest))
      else
        Entry.setattr d field_tag (Value.s (old ++ " " ++ rest))
  | some _ => Entry.setattr d field_tag (Value.s rest)
  | Option.none => Entry.setattr d field_tag (Value.s rest)

/-- The main line loop of `parse_wos` (readers.py lines 202-231).  In the
source, `wos_list.append(wos_dict)` at an `ER` line appends a reference to
the dict that keeps being mutated until the next `PT` line rebinds
`wos_dict`; this aliasing is modelled by counting the `ER` appends of the
current section and emitting that many copies of the section's final dict
when the section closes.  A line arriving before any `PT` line raises
`UnboundLocalError` (the `except` clause's own assignment, or the `append`
argument, evaluates the unbound `wos_dict`). -/
def wosLoop : List String → Option Entry → Nat → String → List Entry →
    Except WosError (List Entry)
  | [], current, erCount, _, acc =>
      match current with
      | some d => Except.ok (acc ++ List.replicate erCount d)
      | Option.none => Except.ok acc
  | line :: rest, current, erCount, last_field_tag, acc =>
      let field_tag := pySlice line 0 2
      let (current, erCount, acc) :=
        if field_tag = "PT" then
          (some new_wos_dict,
           0,
           match current with
           | some d => acc ++ List.replicate erCount d
           | Option.none => acc)
        else (current, erCount, acc)
      match current with
      | Option.none => Except.error (WosError.ioError "UnboundLocalError: wos_dict")
      | some d =>
          let erCount := if field_tag = "ER" then erCount + 1 else erCount
          let field_tag := if field_tag = "  " then last_field_tag else field_tag
          let d := wosAssign d field_tag (pySliceFrom line 3)
          wosLoop rest (some d) erCount field_tag acc

/-- Keys converted to lists after the line loop and their delimiters
(readers.py lines 235-241). -/
def wosListKeys : List String := ["AU", "AF", "DE", "ID", "CR", "C1"]

def wosDelim (key : String) : String :=
  if key == "AU" || key == "AF" || key == "C1" || key == "CR" then "\x0a" else ";"

/-- Python `str.split(delim)` for a one-character delimiter. -/
def pySplit (s : String) (delim : Char) : List String :=
  (s.toList.splitOn delim).map String.mk

/-- Python `str.splitlines()`: split on newlines, no trailing empty piece,
and the empty string yields the empty list. -/
def pySplitlines (s : String) : List String :=
  if s = "" then []
  else
    let parts := (s.toList.splitOn '\x0a').map String.mk
    if s.toList.getLast? = some '\x0a' then parts.dropLast else parts

/-- The list-key conversion pass of `parse_wos` (readers.py lines 243-262):
split string values of the designated keys on their delimiter; missing keys
(KeyError) and non-string values (AttributeError) are passed over. -/
def wosSplitLists (d : Entry) : Entry :=
  wosListKeys.foldl
    (fun d key =>
      match Entry.getattr? d key with
      | some (Value.s contents) =>
          if wosDelim key == ";" then
            Entry.setattr d key (Value.list ((pySplit contents ';').map Value.s))
          else
            Entry.setattr d key (Value.list ((pySplitlines contents).map Value.s))
      | _ => d)
    d

/-- The int-key conversion pass of `parse_wos` (readers.py lines 264-276):
`int(wos_dict['PY'])`; KeyError and TypeError are passed over, but a
non-numeric string raises an uncaught `ValueError`. -/
def wosIntPass (d : Entry) : Except WosError Entry :=
  match Entry.getattr? d "PY" with
  | some (Value.s v) =>
      match pyInt? v with
      | some n => Except.ok (Entry.setattr d "PY" (Value.i n))
      | Option.none => Except.error (WosError.ioError "ValueError: invalid literal for int()")
  | _ => Except.ok d

/-- `parse_wos` (readers.py lines 149-278).  The file is `Option.none` for a
missing or unreadable path (the `IOError` branch).  The prelude raises before
any entry is built: `IOError` on a missing or empty file and `DataError` when
the first line's characters 3-5 are not `'FN'`; afterwards the main loop runs
over `line_list[2:]` and the two conversion passes follow. -/
def parse_wos (file : Option (List String)) : Except WosError (List Entry) :=
  match file with
  | Option.none => Except.error (WosError.ioError "File does not exist, or cannot be read.")
  | some line_list =>
    if line_list.length = 0 then
      Except.error (WosError.ioError "Unable to read filepath or filepath is empty.")
    else if pySlice (line_list.headD "") 3 5 ≠ "FN" then
      Except.error (WosError.dataError "WoS data file must begin with tag FN")
    else
      match wosLoop (line_list.drop 2) Option.none 0 "PT" [] with
      | Except.error e => Except.error e
      | Except.ok wos_list =>
          (wos_list.map wosSplitLists).mapM wosIntPass

/-! ## Concrete configurations used by the claim theorems -/

/-- A minimal `FTParser` subclass that declares `PY` a concatenation field. -/
def cfgConcatPY : FTCfg := { concat_fields := ["PY"] }

/-- A minimal driver configuration with one registry entry `AU → authors`
and no boundary tags. -/
def cfgAuthors : IterCfg :=
  { tags := [("AU", "authors")], concat_fields := [],
    handler := fun _ => Option.none, nfkd := id,
    is_start := fun _ => false, is_end := fun _ => false,
    postprocess_on_new_entry := false }

/-- A driver configuration where two raw tags `T1` and `T2` both rename to
the canonical field `title`. -/
def cfgTwoTitleTags : IterCfg :=
  { tags := [("T1", "title"), ("T2", "title")], concat_fields := [],
    handler := fun _ => Option.none, nfkd := id,
    is_start := fun _ => false, is_end := fun _ => false,
    postprocess_on_new_entry := false }

/-- A minimal `XMLParser` subclass with entry element `article`. -/
def cfgArticle : XMLCfg :=
  { entry_element := "article", tags := [], concat_fields := [],
    handler := fun _ => Option.none, nfkd := id }

/-- The XML event stream (element close events in document order) of
`<root><article><title>A</title></article><article/></root>`: two
occurrences of the entry element, the last one empty. -/
def eventsEmptyTail : List (String × Option String) :=
  [("title", some "A"), ("article", Option.none), ("article", Option.none),
   ("root", Option.none)]

/-- Values joined by the single-space separator in input order. -/
def joinSpace : List String → String
  | [] => ""
  | [v] => v
  | v :: vs => v ++ " " ++ joinSpace vs

/-- The value of field `r` in the active (last) entry. -/
def lastField (st : PState) (r : String) : Option Value :=
  match st.entries.getLast? with
  | some e => Entry.getattr? e r
  | Option.none => Option.none

/-- The merge-monotonicity shape: `n` occurrences of a field yield the
ordered joined string (concatenation field), the scalar (n = 1), or the
`n`-length ordered list. -/
def c6Expected (concat : List String) (r : String) (vs : List String) : Value :=
  if concat.contains r then Value.s (joinSpace vs)
  else
    match vs with
    | [v] => Value.s v
    | _ => Value.list (vs.map Value.s)

/-- The event stream of `n` occurrences of raw tag `t` with values `vs`. -/
def c6Events (t : String) (vs : List String) : List (Option String × Value) :=
  vs.map (fun v => (some t, Value.s v))

/-- An `RDFParser` subclass with one metadata mapping and `date` declared a
concatenation field, used as a witness configuration. -/
def cfgRdfDate : RDFCfg :=
  { meta_elements := [("date", "pDate")], concat_fields := ["date"] }

/-- The coupling invariant between the unrestricted and the restricted run:
same number of entries (both non-empty) and, entry by entry, the same value
of the observed field `F`. -/
def entriesFEq (F : String) (a b : List Entry) : Prop :=
  a.length = b.length ∧ a ≠ [] ∧ b ≠ [] ∧
  ∀ i : Nat, (a[i]?).map (fun e => Entry.getattr? e F) =
    (b[i]?).map (fun e => Entry.getattr? e F)

/-! ## Sanity traces against hand-executed Python -/

-- Sanity examples for the Python-semantics helpers.
example : _cast "2004" = Value.i 2004 := rfl
example : _cast "Smith, J" = Value.s "Smith, J" := rfl
example : pyFalsy (Value.s "") = true := rfl

-- Sanity traces against hand-executed Python.
example :
    FTParser.parse { concat_fields := ["PY"] } Option.none ["ST", "PY 2004"] =
      Except.ok [[("PY", Value.i 2004)]] := rfl
example :
    XMLParser.parse
      { entry_element := "article", tags := [], concat_fields := [],
        handler := fun _ => Option.none, nfkd := id }
      Option.none
      [("title", some "A"), ("article", Option.none), ("article", Option.none),
       ("root", Option.none)] =
      Except.ok [[("title", Value.s "A")], []] := rfl

-- Sanity trace: one subject, 3 triples, 2 mapped predicates.
example :
    RDFParser.parse
      { meta_elements := [("date", "pDate"), ("title", "pTitle")] }
      ["doc1"]
      [("doc1", "pDate", Value.s "2004"), ("doc1", "pJunk", Value.s "x"),
       ("doc1", "pTitle", Value.s "T")] =
      Except.ok [[("date", Value.s "2004"), ("title", Value.s "T")]] := rfl

-- Sanity trace: a minimal well-formed WoS file.
example :
    parse_wos (some ["abcFN Web of Science", "VR 1.0", "PT J", "AU Smith, J",
                     "PY 2004", "ER"]) =
      Except.ok [[("PT", Value.s "J"), ("AU", Value.list [Value.s "Smith, J"]),
                  ("PY", Value.i 2004), ("ER", Value.s "")]] := rfl

/-! ## Helper lemmas about entries -/

theorem Entry.getattr?_setattr_self (e : Entry) (k : String) (v : Value) :
    Entry.getattr? (Entry.setattr e k v) k = some v := by
  induction e with
  | nil => simp [Entry.setattr, Entry.getattr?]
  | cons p rest ih =>
      by_cases hp : p.1 = k
      · simp [Entry.setattr, Entry.getattr?, hp]
      · simp [Entry.setattr, Entry.getattr?, hp, ih]

theorem Entry.getattr?_setattr_ne (e : Entry) (k k' : String) (v : Value)
    (h : k' ≠ k) :
    Entry.getattr? (Entry.setattr e k v) k' = Entry.getattr? e k' := by
  induction e with
  | nil => simp [Entry.setattr, Entry.getattr?, Ne.symm h]
  | cons p rest ih =>
      by_cases hp : p.1 = k
      · simp [Entry.setattr, Entry.getattr?, hp, Ne.symm h]
      · simp [Entry.setattr, Entry.getattr?, hp, ih]

/-! ## C1 — merge policy on absent or empty fields -/

/-- C1 counterexample: the claim says that when the field is present with an
empty value (here `''`) the incoming value (`'y'`) is set directly as the
field's scalar value; in fact lines 171-175 of `IterParser.handle` leave
`value` bound to the existing empty value, so the `setattr` rewrites `''`
and the incoming value is discarded. -/
theorem c1_counterexample :
    mergeField [] [("t", Value.s "")] "t" (Value.s "y") =
        Except.ok [("t", Value.s "")]
      ∧ Entry.getattr? [("t", Value.s "")] "t" ≠ some (Value.s "y") := by
  refine ⟨rfl, ?_⟩
  simp [Entry.getattr?]

/-- C1 (amended): in the driver's merge policy, on a non-concatenation field
whose existing value is not a list, the incoming value is set directly as the
field's scalar value only when the field is absent from the active Entry;
when the field is present with an empty value (`None` or `''`), the existing
empty value is kept (rewritten in place) and the incoming value is
discarded. -/
theorem c1_merge_policy :
    (∀ (concat : List String) (e : Entry) (t : String) (d : Value),
        Entry.getattr? e t = Option.none →
        mergeField concat e t d = Except.ok (Entry.setattr e t d))
    ∧ (∀ (concat : List String) (e : Entry) (t : String) (d v : Value),
        concat.contains t = false →
        Entry.getattr? e t = some v → valueIsNoneOrEmpty v = true →
        mergeField concat e t d = Except.ok (Entry.setattr e t v)) := by
  constructor
  · intro concat e t d h
    simp [mergeField, mergeValue, h]
  · intro concat e t d v hc h hv
    cases v <;> simp_all [mergeField, mergeValue, valueIsNoneOrEmpty]

/-- C1 witness: both branches of the amended merge policy at concrete
inputs. -/
theorem c1_witness :
    mergeField [] [] "t" (Value.s "x") = Except.ok [("t", Value.s "x")]
      ∧ mergeField [] [("u", Value.none)] "u" (Value.s "y") =
          Except.ok [("u", Value.none)] :=
  ⟨c1_merge_policy.1 [] [] "t" (Value.s "x") rfl,
   c1_merge_policy.2 [] [("u", Value.none)] "u" (Value.s "y") Value.none rfl rfl rfl⟩

/-! ## C3 — the parse_only filter -/

/-- C3 counterexample: with `S = {'bogus'}` mapping to no raw tag the
computed subset is empty, which is falsy, so the filter at line 147 is
disabled and the pair `('AU', 'x')` is NOT dropped — it still populates the
field `authors`; the claim predicts an empty entry. -/
theorem c3_counterexample :
    IterParser.parse cfgAuthors (some ["bogus"]) [(some "AU", Value.s "x")] =
        Except.ok [[("authors", Value.s "x")]]
      ∧ ([[("authors", Value.s "x")]] : List Entry) ≠ [[]] := by
  refine ⟨rfl, ?_⟩
  simp

/-- C3 (amended): a (tag, data) pair whose raw tag lies outside the computed
subset is dropped (the handler returns the state unchanged) whenever the
computed subset is non-empty; when the requested names map to no raw tag the
computed subset is empty — a falsy set — so the filter is disabled and the
driver behaves exactly as an unrestricted parse, dropping nothing. -/
theorem c3_filter_policy :
    (∀ (cfg : IterCfg) (po : List String) (st : PState) (t : String) (d : Value),
        po ≠ [] → po.contains t = false →
        cfg.is_start (some t) = false → cfg.is_end (some t) = false →
        IterParser.handle cfg (some po) st (some t) d = Except.ok st)
    ∧ (∀ (cfg : IterCfg) (st : PState) (tag : Option String) (d : Value),
        IterParser.handle cfg (some []) st tag d =
          IterParser.handle cfg Option.none st tag d) := by
  constructor
  · intro cfg po st t d hpo hcon hs he
    have hne : po.isEmpty = false := by
      cases po with
      | nil => exact absurd rfl hpo
      | cons a l => rfl
    have hmem : t ∉ po := by simpa using hcon
    have hfd : filterDrop (some po) t = true := by
      simp [filterDrop, hne, hmem]
    simp [IterParser.handle, boundaryStep, hs, he, hfd]
  · intro cfg st tag d
    rfl

/-- C3 witness: a concrete dropped pair (non-empty computed subset) and a
concrete pair processed identically under the empty subset and no subset. -/
theorem c3_witness :
    IterParser.handle cfgAuthors (some ["AU"]) initState (some "TI") (Value.s "x") =
        Except.ok initState
      ∧ IterParser.handle cfgAuthors (some []) initState (some "AU") (Value.s "x") =
          IterParser.handle cfgAuthors Option.none initState (some "AU") (Value.s "x") :=
  ⟨c3_filter_policy.1 cfgAuthors ["AU"] initState "TI" (Value.s "x")
      (by simp) rfl rfl rfl,
   c3_filter_policy.2 cfgAuthors initState (some "AU") (Value.s "x")⟩

/-! ## C8 — fail-fast resource and format errors -/

/-- C8: the field-tagged text reader fails fast: `FTParser.open` raises
`IOError` on a missing/unreadable path before any entry is produced, and
`parse_wos` raises `IOError` on a missing/unreadable or empty file and
`DataError` when the first content line fails the `FN` header-tag check —
in each case the error is returned instead of a (partial) entry list. -/
theorem c8_failfast :
    FTParser.open Option.none = Except.error "IOError: No such path"
      ∧ parse_wos Option.none =
          Except.error (WosError.ioError "File does not exist, or cannot be read.")
      ∧ (∀ (l0 : String) (rest : List String), pySlice l0 3 5 ≠ "FN" →
          parse_wos (some (l0 :: rest)) =
            Except.error (WosError.dataError "WoS data file must begin with tag FN")) := by
  refine ⟨rfl, rfl, ?_⟩
  intro l0 rest h
  simp [parse_wos, h]

/-- C8 witness: a file whose first content line fails the header-tag check
raises the format error. -/
theorem c8_witness :
    parse_wos (some ["garbage line", "VR 1.0", "PT J", "ER"]) =
      Except.error (WosError.dataError "WoS data file must begin with tag FN") :=
  c8_failfast.2.2 "garbage line" ["VR 1.0", "PT J", "ER"] (by decide)

/-! ## C9 — termination of the construction-time scan -/

/-- C9: the `start()` scan of `FTParser` terminates if and only if the input
file contains a line that tokenizes (via the line regex) to the start tag;
on a file with no such line, `next()` at end of file keeps returning
`(None, None)` without updating `current_tag`, so the loop never exits
(modelled by `Option.none`). -/
theorem c9_start_termination (startTag : String) (lines : List String) :
    (FTParser.start startTag lines).isSome = true ↔
      ∃ l ∈ lines, ∃ d, matchTag l = some (startTag, d) := by
  induction lines with
  | nil => simp [FTParser.start]
  | cons l rest ih =>
      by_cases hl : l = ""
      · subst hl
        simp [FTParser.start, (show matchTag "" = Option.none from rfl), ih]
      · cases hm : matchTag l with
        | none => simp [FTParser.start, hl, hm, ih]
        | some td =>
            obtain ⟨tg, dt⟩ := td
            by_cases ht : tg = startTag
            · subst ht
              simp [FTParser.start, hl, hm]
            · simp [FTParser.start, hl, hm, ht, ih]

/-- C9 witness: a file whose second line carries the start tag makes the
scan terminate. -/
theorem c9_witness :
    (FTParser.start "ST" ["AB x", "ST rec"]).isSome = true :=
  (c9_start_termination "ST" ["AB x", "ST rec"]).mpr
    ⟨"ST rec", by simp, "rec", rfl⟩

/-! ## C10 — RDFParser.parse requires non-empty meta_elements -/

/-- C10: `RDFParser.parse` fails at its first step — the unpacking
`meta_fields, meta_refs = zip(*self.meta_elements)` — whenever
`meta_elements` is the empty list (the class default), before any entry is
produced; it returns normally only when `meta_elements` is non-empty. -/
theorem c10_rdf_meta_precondition (cfg : RDFCfg) (subjects : List String)
    (graph : List (String × String × Value)) :
    (cfg.meta_elements = [] →
        RDFParser.parse cfg subjects graph =
          Except.error "ValueError: not enough values to unpack")
      ∧ (∀ es, RDFParser.parse cfg subjects graph = Except.ok es →
          cfg.meta_elements ≠ []) := by
  constructor
  · intro h
    simp [RDFParser.parse, h]
  · intro es h hempty
    simp [RDFParser.parse, hempty] at h

/-- C10 witness: the default configuration (empty `meta_elements`) makes
`parse` raise immediately. -/
theorem c10_witness :
    RDFParser.parse {} ["doc1"] [("doc1", "pDate", Value.s "2004")] =
      Except.error "ValueError: not enough values to unpack" :=
  (c10_rdf_meta_precondition {} ["doc1"] [("doc1", "pDate", Value.s "2004")]).1 rfl

/-! ## Structural inversion lemmas for the driver -/

theorem postprocess_ok_eq (st st' : PState)
    (h : BaseParser.postprocess_entry st = Except.ok st') : st' = st := by
  unfold BaseParser.postprocess_entry at h
  split at h
  · cases h
  · exact (Except.ok.inj h).symm

theorem newEntryStep_ok_eq (cfg : IterCfg) (st st' : PState)
    (h : newEntryStep cfg st = Except.ok st') : st' = BaseParser.new_entry st := by
  unfold newEntryStep at h
  split at h
  · cases hp : BaseParser.postprocess_entry st with
    | error e => rw [hp] at h; cases h
    | ok st2 =>
        rw [hp] at h
        rw [postprocess_ok_eq st st2 hp] at h
        exact (Except.ok.inj h).symm
  · exact (Except.ok.inj h).symm

theorem boundaryStep_ok_cases (cfg : IterCfg) (st : PState) (tag : Option String)
    (st' : PState) (h : boundaryStep cfg st tag = Except.ok st') :
    st' = st ∨ st' = BaseParser.new_entry st := by
  unfold boundaryStep at h
  split at h
  · cases h
  · rename_i st1 hpp
    have h1 : st1 = st := by
      split at hpp
      · exact postprocess_ok_eq st st1 hpp
      · exact (Except.ok.inj hpp).symm
    subst h1
    split at h
    · exact Or.inr (newEntryStep_ok_eq cfg st1 st' h)
    · exact Or.inl (Except.ok.inj h).symm

/-- Refined form: a successful boundary step appends a fresh entry exactly
when the tag is a start tag. -/
theorem boundaryStep_ok_start (cfg : IterCfg) (st : PState) (tag : Option String)
    (stb : PState) (h : boundaryStep cfg st tag = Except.ok stb) :
    stb = (if cfg.is_start tag = true then BaseParser.new_entry st else st) := by
  unfold boundaryStep at h
  split at h
  · cases h
  · rename_i st1 hpp
    have h1 : st1 = st := by
      split at hpp
      · exact postprocess_ok_eq st st1 hpp
      · exact (Except.ok.inj hpp).symm
    subst h1
    split at h
    · rename_i hs; rw [if_pos hs]; exact newEntryStep_ok_eq cfg st1 stb h
    · rename_i hs; rw [if_neg hs]; exact (Except.ok.inj h).symm

theorem mergeField_ok_form (concat : List String) (e : Entry) (t : String)
    (d : Value) (e' : Entry) (h : mergeField concat e t d = Except.ok e') :
    ∃ v, mergeValue concat t (Entry.getattr? e t) d = Except.ok v ∧
      e' = Entry.setattr e t v := by
  unfold mergeField at h
  cases hm : mergeValue concat t (Entry.getattr? e t) d with
  | error err => rw [hm] at h; cases h
  | ok v => rw [hm] at h; exact ⟨v, rfl, (Except.ok.inj h).symm⟩

/-- Complete case analysis of a successful `IterParser.handle` call: the
boundary step yields an intermediate state (unchanged, or with a fresh entry
appended), after which either the pair is skipped (falsy data/tag or filter)
or the transformed data is merged into the last entry under the resolved
field name. -/
theorem handle_ok_cases (cfg : IterCfg) (po : Option (List String)) (st : PState)
    (tag : Option String) (d : Value) (st' : PState)
    (h : IterParser.handle cfg po st tag d = Except.ok st') :
    ∃ stb, stb = (if cfg.is_start tag = true then BaseParser.new_entry st else st) ∧
      (st' = stb ∨
        ∃ t e e', tag = some t ∧ stb.entries.getLast? = some e ∧
          mergeField cfg.concat_fields e (resolveTag cfg.tags t)
            (handlerStep cfg t (normalizeStep cfg d)) = Except.ok e' ∧
          st' = { stb with
                    entries := stb.entries.dropLast ++ [e'],
                    fields := addField stb.fields (resolveTag cfg.tags t) }) := by
  unfold IterParser.handle at h
  split at h
  · cases h
  · rename_i stb hb
    refine ⟨stb, boundaryStep_ok_start cfg st tag stb hb, ?_⟩
    split at h
    · exact Or.inl (Except.ok.inj h).symm
    · split at h
      · exact Or.inl (Except.ok.inj h).symm
      · rename_i t hfal2
        split at h
        · exact Or.inl (Except.ok.inj h).symm
        · split at h
          · cases h
          · rename_i e hl
            split at h
            · cases h
            · rename_i e' hm
              exact Or.inr ⟨t, e, e', rfl, hl, hm, (Except.ok.inj h).symm⟩

/-! ## C7 — presence discipline -/

/-- An invariant of the driver: a field name that no processed event resolves
to never appears in any entry. -/
theorem handle_preserves_absent (cfg : IterCfg) (po : Option (List String))
    (st : PState) (tag : Option String) (d : Value) (st' : PState) (f : String)
    (h : IterParser.handle cfg po st tag d = Except.ok st')
    (hres : ∀ t, tag = some t → resolveTag cfg.tags t ≠ f)
    (hinv : ∀ e ∈ st.entries, Entry.getattr? e f = Option.none) :
    ∀ e ∈ st'.entries, Entry.getattr? e f = Option.none := by
  obtain ⟨stb, hstb, hrest⟩ := handle_ok_cases cfg po st tag d st' h
  have hinvb : ∀ e ∈ stb.entries, Entry.getattr? e f = Option.none := by
    by_cases hs : cfg.is_start tag = true
    · rw [if_pos hs] at hstb
      subst hstb
      intro e he
      simp only [BaseParser.new_entry, List.mem_append, List.mem_singleton] at he
      cases he with
      | inl hmem => exact hinv e hmem
      | inr hnil => subst hnil; rfl
    · rw [if_neg hs] at hstb
      subst hstb
      exact hinv
  cases hrest with
  | inl hl => subst hl; exact hinvb
  | inr hr =>
      obtain ⟨t, e, e', htag, hl, hm, hst'⟩ := hr
      obtain ⟨v, _, he'⟩ := mergeField_ok_form _ _ _ _ _ hm
      subst hst'
      intro x hx
      simp only [List.mem_append, List.mem_singleton] at hx
      cases hx with
      | inl hmem => exact hinvb x (List.dropLast_subset _ hmem)
      | inr hx' =>
          subst hx'
          rw [he', Entry.getattr?_setattr_ne _ _ _ _ (hres t htag).symm]
          exact hinvb e (List.mem_of_getLast?_eq_some hl)

/-- The invariant carried through the main loop. -/
theorem runLoop_preserves_absent (cfg : IterCfg) (po : Option (List String))
    (f : String) :
    ∀ (events : List (Option String × Value)) (st st' : PState),
    IterParser.runLoop cfg po events st = Except.ok st' →
    (∀ ev ∈ events, ∀ t, ev.1 = some t → resolveTag cfg.tags t ≠ f) →
    (∀ e ∈ st.entries, Entry.getattr? e f = Option.none) →
    ∀ e ∈ st'.entries, Entry.getattr? e f = Option.none := by
  intro events
  induction events with
  | nil =>
      intro st st' h _ hinv
      have := postprocess_ok_eq st st' h
      subst this
      exact hinv
  | cons ev rest ih =>
      intro st st' h hres hinv
      obtain ⟨tag, d⟩ := ev
      unfold IterParser.runLoop at h
      cases hh : IterParser.handle cfg po st tag d with
      | error e => rw [hh] at h; cases h
      | ok st1 =>
          rw [hh] at h
          have hinv1 := handle_preserves_absent cfg po st tag d st1 f hh
            (fun t ht => hres (tag, d) (by simp) t ht) hinv
          exact ih { st1 with lastTag := tag } st' h
            (fun e he t ht => hres e (List.mem_cons_of_mem _ he) t ht) hinv1

/-- C7 (amended): presence discipline holds for the line/XML driver — a
(tag, data) pair with falsy data (Python `not data`: `None`, `''`, `0`)
skips field assignment while the entry-boundary state is still updated, and
a field no processed event resolves to is absent from every yielded Entry —
but the RDF handler skips only `None` data: a pair carrying an empty-string
datum is assigned, leaving a field present with an empty value. -/
theorem c7_presence :
    (∀ (cfg : IterCfg) (po : Option (List String)) (st : PState)
        (tag : Option String) (d : Value), pyFalsy d = true →
        IterParser.handle cfg po st tag d = boundaryStep cfg st tag)
    ∧ (∀ (cfg : RDFCfg) (st : PState) (t : String), cfg.handler t = Option.none →
        RDFParser.handle cfg st t Value.none = Except.ok st)
    ∧ (∀ (cfg : IterCfg) (ponly : Option (List String))
        (events : List (Option String × Value)) (es : List Entry) (f : String),
        IterParser.parse cfg ponly events = Except.ok es →
        (∀ ev ∈ events, ∀ t, ev.1 = some t → resolveTag cfg.tags t ≠ f) →
        ∀ e ∈ es, Entry.getattr? e f = Option.none) := by
  refine ⟨?_, ?_, ?_⟩
  · intro cfg po st tag d hd
    unfold IterParser.handle
    cases hb : boundaryStep cfg st tag with
    | error e => rfl
    | ok stb => simp [hd]
  · intro cfg st t hh
    simp [RDFParser.handle, rdfHandlerStep, hh]
  · intro cfg ponly events es f h hres
    unfold IterParser.parse at h
    cases hrl : IterParser.runLoop cfg (parseOnlyAttr cfg.tags ponly) events initState with
    | error e => rw [hrl] at h; cases h
    | ok stf =>
        rw [hrl] at h
        simp only [] at h
        have hes : es = stf.entries := (Except.ok.inj h).symm
        subst hes
        exact runLoop_preserves_absent _ _ f events initState stf hrl hres
          (by intro e he; simp [initState] at he; subst he; rfl)

/-- C7 counterexample: `RDFParser.handle` given an empty-string datum does
NOT skip the assignment (only `None` is skipped): the field ends up present
with an empty value, which the claim forbids. -/
theorem c7_counterexample :
    RDFParser.handle {} (PState.mk [[]] [] Option.none) "abstract" (Value.s "") =
        Except.ok (PState.mk [[("abstract", Value.s "")]] ["abstract"] Option.none)
      ∧ Entry.getattr? [("abstract", Value.s "")] "abstract" = some (Value.s "")
      ∧ pyFalsy (Value.s "") = true := ⟨rfl, rfl, rfl⟩

/-- C7 witness: the three amended clauses at concrete inputs — falsy data is
skipped by the driver (boundary handling only), `None` is skipped by the RDF
handler, and a field never resolved to by any event is absent. -/
theorem c7_witness :
    IterParser.handle cfgAuthors Option.none initState (some "AU") (Value.s "") =
        boundaryStep cfgAuthors initState (some "AU")
      ∧ RDFParser.handle {} initState "title" Value.none = Except.ok initState
      ∧ Entry.getattr? [("authors", Value.s "x")] "title" = Option.none :=
  ⟨c7_presence.1 cfgAuthors Option.none initState (some "AU") (Value.s "") rfl,
   c7_presence.2.1 {} initState "title" rfl,
   c7_presence.2.2 cfgAuthors Option.none [(some "AU", Value.s "x")]
     [[("authors", Value.s "x")]] "title" rfl (by decide)
     [("authors", Value.s "x")] (by simp)⟩

/-! ## C5 — concatenation fields never hold lists -/

theorem cast_not_list (s : String) : valueIsList (_cast s) = false := by
  unfold _cast
  cases pyInt? s with
  | some n => rfl
  | none =>
      by_cases hf : pyFloatLike s = true
      · simp [hf, valueIsList]
      · simp [hf, valueIsList]

theorem normalizeStep_not_list (cfg : IterCfg) (d : Value) :
    valueIsList (normalizeStep cfg d) = valueIsList d := by
  cases d <;> rfl

theorem mergeValue_concat_not_list (concat : List String) (t : String)
    (old : Option Value) (data v : Value)
    (hc : concat.contains t = true)
    (hm : mergeValue concat t old data = Except.ok v)
    (hd : valueIsList data = false) : valueIsList v = false := by
  cases old with
  | none =>
      simp only [mergeValue] at hm
      rw [(Except.ok.inj hm).symm]
      exact hd
  | some w =>
      simp only [mergeValue] at hm
      rw [if_pos hc] at hm
      split at hm
      · rw [(Except.ok.inj hm).symm]; rfl
      · cases hm

/-- `IterParser.handle` preserves the invariant that concatenation fields
never hold list values, provided the incoming data is not a list and the
registered handlers never return lists. -/
theorem handle_preserves_concat (cfg : IterCfg) (po : Option (List String))
    (st : PState) (tag : Option String) (d : Value) (st' : PState)
    (h : IterParser.handle cfg po st tag d = Except.ok st')
    (hd : valueIsList d = false)
    (hh : ∀ t hdlr, cfg.handler t = some hdlr → ∀ v, valueIsList (hdlr v) = false)
    (hinv : ∀ e ∈ st.entries, ∀ fld, cfg.concat_fields.contains fld = true →
        ∀ v, Entry.getattr? e fld = some v → valueIsList v = false) :
    ∀ e ∈ st'.entries, ∀ fld, cfg.concat_fields.contains fld = true →
        ∀ v, Entry.getattr? e fld = some v → valueIsList v = false := by
  obtain ⟨stb, hstb, hrest⟩ := handle_ok_cases cfg po st tag d st' h
  have hinvb : ∀ e ∈ stb.entries, ∀ fld, cfg.concat_fields.contains fld = true →
      ∀ v, Entry.getattr? e fld = some v → valueIsList v = false := by
    by_cases hs : cfg.is_start tag = true
    · rw [if_pos hs] at hstb
      subst hstb
      intro e he fld hc v hv
      simp only [BaseParser.new_entry, List.mem_append, List.mem_singleton] at he
      cases he with
      | inl hmem => exact hinv e hmem fld hc v hv
      | inr hnil => subst hnil; cases hv
    · rw [if_neg hs] at hstb
      subst hstb
      exact hinv
  cases hrest with
  | inl hl => subst hl; exact hinvb
  | inr hr =>
      obtain ⟨t, e, e', htag, hl, hm, hst'⟩ := hr
      obtain ⟨v0, hmv, he'⟩ := mergeField_ok_form _ _ _ _ _ hm
      have hd' : valueIsList (handlerStep cfg t (normalizeStep cfg d)) = false := by
        unfold handlerStep
        cases hht : cfg.handler t with
        | some hdlr => exact hh t hdlr hht _
        | none => rw [normalizeStep_not_list]; exact hd
      subst hst'
      intro x hx fld hc v hv
      simp only [List.mem_append, List.mem_singleton] at hx
      cases hx with
      | inl hmem => exact hinvb x (List.dropLast_subset _ hmem) fld hc v hv
      | inr hx' =>
          subst hx'
          by_cases hfe : fld = resolveTag cfg.tags t
          · subst hfe
            rw [he', Entry.getattr?_setattr_self] at hv
            have hv0 : v0 = v := Option.some.inj hv
            subst hv0
            exact mergeValue_concat_not_list _ _ _ _ _ hc hmv hd'
          · rw [he', Entry.getattr?_setattr_ne _ _ _ _ hfe] at hv
            exact hinvb e (List.mem_of_getLast?_eq_some hl) fld hc v hv

/-- The data produced by `FTParser.next` is never a Python list. -/
theorem ftNext_data_not_list (lt : Option String) (lines : List String) :
    valueIsList (FTParser.next lt lines).1.2.2 = false := by
  induction lines with
  | nil => rfl
  | cons line rest ih =>
      unfold FTParser.next
      by_cases hl : line = ""
      · simp only [if_pos hl]; exact ih
      · simp only [if_neg hl]
        cases matchTag line with
        | some td => exact cast_not_list td.2
        | none => exact cast_not_list (pyStripStr line)

/-- The invariant carried through the text backend's main loop. -/
theorem ftRunLoop_preserves_concat (cfg : IterCfg) (po : Option (List String))
    (hh : ∀ t hdlr, cfg.handler t = some hdlr → ∀ v, valueIsList (hdlr v) = false) :
    ∀ (fuel : Nat) (lines : List String) (st st' : PState),
    FTParser.runLoop cfg po fuel lines st = Except.ok st' →
    (∀ e ∈ st.entries, ∀ fld, cfg.concat_fields.contains fld = true →
        ∀ v, Entry.getattr? e fld = some v → valueIsList v = false) →
    ∀ e ∈ st'.entries, ∀ fld, cfg.concat_fields.contains fld = true →
        ∀ v, Entry.getattr? e fld = some v → valueIsList v = false := by
  intro fuel
  induction fuel with
  | zero =>
      intro lines st st' h hinv
      have := postprocess_ok_eq st st' h
      subst this
      exact hinv
  | succ fuel ih =>
      intro lines st st' h hinv
      unfold FTParser.runLoop at h
      split at h
      · have := postprocess_ok_eq st st' h
        subst this
        exact hinv
      · rename_i tag data rest hn
        split at h
        · cases h
        · rename_i st1 hhd
          have hdata : valueIsList data = false := by
            have hx := ftNext_data_not_list st.lastTag lines
            rw [hn] at hx
            exact hx
          exact ih rest { st1 with lastTag := tag } st' h
            (handle_preserves_concat cfg po st tag data st1 hhd hdata hh hinv)

/-- C5 (amended): a field name declared a concatenation field, whenever
present in an Entry yielded by the text backend, never holds a list — for
every input and every number of occurrences (handlers, when registered, are
assumed not to return lists; the backends in the repository register none).
The "single joined string" half of the claim fails: a single occurrence
keeps the numerically coerced scalar, see the counterexample. -/
theorem c5_concat_never_list (cfg : FTCfg) (ponly : Option (List String))
    (lines : List String) (es : List Entry)
    (h : FTParser.parse cfg ponly lines = Except.ok es)
    (hh : ∀ t hdlr, cfg.handler t = some hdlr → ∀ v, valueIsList (hdlr v) = false) :
    ∀ e ∈ es, ∀ fld, cfg.concat_fields.contains fld = true →
        ∀ v, Entry.getattr? e fld = some v → valueIsList v = false := by
  unfold FTParser.parse at h
  split at h
  · cases h
  · rename_i rest hs
    split at h
    · cases h
    · rename_i stf hrl
      have hes : es = stf.entries := (Except.ok.inj h).symm
      subst hes
      exact ftRunLoop_preserves_concat cfg.toIter _ hh _ rest initState stf hrl
        (by
          intro e he fld hc v hv
          simp [initState] at he
          subst he
          cases hv)

/-- C5 counterexample: `PY` is declared a concatenation field; a single
occurrence `PY 2004` undergoes the generic numeric coercion (`_cast`) and
the field ends up holding the `int` 2004 — a non-string scalar, where the
claim demands a joined string. -/
theorem c5_counterexample :
    FTParser.parse cfgConcatPY Option.none ["ST", "PY 2004"] =
        Except.ok [[("PY", Value.i 2004)]]
      ∧ cfgConcatPY.concat_fields.contains "PY" = true
      ∧ valueIsStr (Value.i 2004) = false := ⟨rfl, rfl, rfl⟩

/-- C5 witness: a concrete parse through the amended invariant — the
concatenation field `PY`, present after two string occurrences, holds the
joined string, not a list. -/
theorem c5_witness :
    FTParser.parse cfgConcatPY Option.none ["ST", "PY a", "PY b"] =
        Except.ok [[("PY", Value.s "a b")]]
      ∧ valueIsList (Value.s "a b") = false :=
  ⟨rfl,
   c5_concat_never_list cfgConcatPY Option.none ["ST", "PY a", "PY b"]
     [[("PY", Value.s "a b")]] rfl
     (by intro t hdlr hht v; cases hht)
     [("PY", Value.s "a b")] (by simp) "PY" rfl (Value.s "a b") rfl⟩

/-! ## C2 — XML boundary counting with an empty trailing entry element -/

/-- A successful `handle` grows the entry list by one exactly on a start tag
and keeps it non-empty. -/
theorem handle_entry_count (cfg : IterCfg) (po : Option (List String))
    (st : PState) (tag : Option String) (d : Value) (st' : PState)
    (h : IterParser.handle cfg po st tag d = Except.ok st')
    (hne : st.entries ≠ []) :
    st'.entries.length = st.entries.length +
        (if cfg.is_start tag = true then 1 else 0) ∧ st'.entries ≠ [] := by
  obtain ⟨stb, hstb, hrest⟩ := handle_ok_cases cfg po st tag d st' h
  have hblen : stb.entries.length = st.entries.length +
      (if cfg.is_start tag = true then 1 else 0) ∧ stb.entries ≠ [] := by
    by_cases hs : cfg.is_start tag = true
    · rw [if_pos hs] at hstb
      subst hstb
      simp [BaseParser.new_entry, hs]
    · rw [if_neg hs] at hstb
      subst hstb
      simp [hs, hne]
  cases hrest with
  | inl hl => subst hl; exact hblen
  | inr hr =>
      obtain ⟨t, e, e', htag, hl, hm, hst'⟩ := hr
      obtain ⟨ys, hys⟩ := List.getLast?_eq_some_iff.mp hl
      subst hst'
      constructor
      · simp only [hys, List.dropLast_concat]
        rw [← hblen.1, hys]
        simp
      · simp

/-- Entry counting through the XML element walk. -/
theorem runChildren_count (cfg : IterCfg) (po : Option (List String)) :
    ∀ (evs : List (String × Option String)) (st st' : PState),
    XMLParser.runChildren cfg po evs st = Except.ok st' → st.entries ≠ [] →
    st'.entries.length = st.entries.length +
        evs.countP (fun ev => cfg.is_start (some ev.1)) ∧ st'.entries ≠ [] := by
  intro evs
  induction evs with
  | nil =>
      intro st st' h hne
      have : st' = st := (Except.ok.inj h).symm
      subst this
      simp [hne]
  | cons ev rest ih =>
      intro st st' h hne
      obtain ⟨tag, text⟩ := ev
      unfold XMLParser.runChildren at h
      cases hh : IterParser.handle cfg po st (some tag) (XMLParser.toValue text) with
      | error e => rw [hh] at h; cases h
      | ok st1 =>
          rw [hh] at h
          obtain ⟨hlen1, hne1⟩ := handle_entry_count cfg po st (some tag)
            (XMLParser.toValue text) st1 hh hne
          obtain ⟨hlen2, hne2⟩ := ih { st1 with lastTag := some tag } st' h hne1
          refine ⟨?_, hne2⟩
          simp only [List.countP_cons]
          simp only [] at hlen2
          rw [hlen2, hlen1]
          by_cases hs : cfg.is_start (some tag) = true <;> simp [hs] <;> omega

/-- Decomposition of the element walk over an append. -/
theorem runChildren_append (cfg : IterCfg) (po : Option (List String)) :
    ∀ (a b : List (String × Option String)) (st : PState),
    XMLParser.runChildren cfg po (a ++ b) st =
      (XMLParser.runChildren cfg po a st).bind (XMLParser.runChildren cfg po b) := by
  intro a
  induction a with
  | nil => intro b st; rfl
  | cons ev rest ih =>
      intro b st
      obtain ⟨tag, text⟩ := ev
      simp only [List.cons_append]
      unfold XMLParser.runChildren
      cases hh : IterParser.handle cfg po st (some tag) (XMLParser.toValue text) with
      | error e => rfl
      | ok st1 => exact ih b { st1 with lastTag := some tag }

/-- A start-boundary pair carrying falsy data only appends a fresh entry. -/
theorem handle_start_falsy (cfg : IterCfg) (po : Option (List String))
    (st : PState) (tag : Option String) (d : Value)
    (hs : cfg.is_start tag = true) (hd : pyFalsy d = true)
    (hne : st.entries ≠ []) :
    IterParser.handle cfg po st tag d = Except.ok (BaseParser.new_entry st) := by
  have hie : st.entries.isEmpty = false := by
    cases he : st.entries with
    | nil => exact absurd he hne
    | cons a l => rfl
  have hppe : BaseParser.postprocess_entry st = Except.ok st := by
    simp [BaseParser.postprocess_entry, hie]
  have h1 : (if cfg.is_end tag = true then BaseParser.postprocess_entry st
      else Except.ok st) = Except.ok st := by
    split
    · exact hppe
    · rfl
  have hbs : boundaryStep cfg st tag = Except.ok (BaseParser.new_entry st) := by
    simp [boundaryStep, h1, hs, newEntryStep, hppe]
  simp [IterParser.handle, hbs, hd]

/-- C2 (amended): an XML source with N occurrences of the entry element whose
last entry element is empty yields exactly N Entries, not N-1: each element
close appends one fresh entry, the automatically created phantom entry after
the final close is the only one deleted, and the empty N-th Entry (from the
empty last element) is retained as an Entry with no fields. -/
theorem c2_xml_entry_count (cfg : XMLCfg)
    (events : List (String × Option String)) (es : List Entry)
    (hlast : events.getLast? = some (cfg.entry_element, Option.none))
    (h : XMLParser.parse cfg Option.none events = Except.ok es) :
    es.length = events.countP (fun ev => ev.1 == cfg.entry_element) := by
  obtain ⟨init, hev⟩ := List.getLast?_eq_some_iff.mp hlast
  subst hev
  unfold XMLParser.parse at h
  split at h
  · rename_i err heq
    rw [(show newEntryStep cfg.toIter (PState.mk [] [] Option.none) =
        Except.ok (PState.mk [[]] [] Option.none) from rfl)] at heq
    cases heq
  · rename_i st0 heq0
    have hst0 : st0 = PState.mk [[]] [] Option.none := by
      rw [(show newEntryStep cfg.toIter (PState.mk [] [] Option.none) =
          Except.ok (PState.mk [[]] [] Option.none) from rfl)] at heq0
      exact (Except.ok.inj heq0).symm
    subst hst0
    split at h
    · cases h
    · rename_i stf hrc
      rw [runChildren_append] at hrc
      cases hmid : XMLParser.runChildren cfg.toIter
          (xmlParseOnlyAttr cfg.tags Option.none) init (PState.mk [[]] [] Option.none) with
      | error e => rw [hmid] at hrc; cases hrc
      | ok stm =>
          rw [hmid] at hrc
          simp only [Except.bind] at hrc
          obtain ⟨hlenm, hnem⟩ := runChildren_count cfg.toIter _ init
            (PState.mk [[]] [] Option.none) stm hmid (by simp)
          have hsstart : cfg.toIter.is_start (some cfg.entry_element) = true := by
            simp [XMLCfg.toIter]
          have hstep : IterParser.handle cfg.toIter
              (xmlParseOnlyAttr cfg.tags Option.none) stm (some cfg.entry_element)
              (XMLParser.toValue Option.none) =
              Except.ok (BaseParser.new_entry stm) :=
            handle_start_falsy _ _ _ _ _ hsstart rfl hnem
          unfold XMLParser.runChildren at hrc
          rw [hstep] at hrc
          have hstf : stf = { BaseParser.new_entry stm with
              lastTag := some cfg.entry_element } := (Except.ok.inj hrc).symm
          subst hstf
          split at h
          · rename_i hgl
            simp [BaseParser.new_entry, List.getLast?_concat] at hgl
          · rename_i e hgl
            simp only [BaseParser.new_entry, List.getLast?_concat,
              Option.some.injEq] at hgl
            have he : e = [] := hgl.symm
            subst he
            simp only [List.isEmpty_nil, if_pos] at h
            have hes : es = stm.entries := by
              have := (Except.ok.inj h).symm
              rw [this]
              simp [BaseParser.new_entry, List.dropLast_concat]
            subst hes
            have hpq : init.countP (fun ev => cfg.toIter.is_start (some ev.1)) =
                init.countP (fun ev => ev.1 == cfg.entry_element) :=
              List.countP_congr (fun ev _ => by simp [XMLCfg.toIter])
            rw [hlenm, hpq, List.countP_append]
            simp [List.countP_cons]
            omega

/-- C2 counterexample: two occurrences of the entry element, the last one
empty — `XMLParser.parse` yields 2 Entries (the empty second entry is
retained; only the phantom trailing entry is deleted), not N-1 = 1 as the
claim states. -/
theorem c2_counterexample :
    XMLParser.parse cfgArticle Option.none eventsEmptyTail =
        Except.ok [[("title", Value.s "A")], []]
      ∧ eventsEmptyTail.countP (fun ev => ev.1 == "article") = 2
      ∧ ¬ ([[("title", Value.s "A")], []] : List Entry).length = 2 - 1 := by
  refine ⟨rfl, rfl, ?_⟩
  decide

/-- C2 witness: a single empty entry element yields exactly one (empty)
Entry — N Entries for N occurrences. -/
theorem c2_witness :
    ([([] : Entry)]).length =
      [("article", (Option.none : Option String))].countP
        (fun ev => ev.1 == cfgArticle.entry_element) :=
  c2_xml_entry_count cfgArticle [("article", Option.none)] [[]] rfl rfl

/-! ## C6 — merge monotonicity -/

theorem joinSpace_cons_cons (a b : String) (l : List String) :
    joinSpace (a :: b :: l) = joinSpace ((a ++ " " ++ b) :: l) := by
  cases l with
  | nil => rfl
  | cons c cs => simp [joinSpace, String.append_assoc]

/-- One driver step under the C6 hypotheses: a non-boundary tag with a
non-empty, normalization-stable string value merges into the last entry. -/
theorem c6_step (cfg : IterCfg) (t v : String) (st : PState) (ys : List Entry)
    (e : Entry) (vNew : Value)
    (hhdl : cfg.handler t = Option.none)
    (hs : cfg.is_start (some t) = false) (he : cfg.is_end (some t) = false)
    (ht : t ≠ "") (hv : v ≠ "")
    (hnorm : removeCR (cfg.nfkd v) = v)
    (hys : st.entries = ys ++ [e])
    (hmv : mergeValue cfg.concat_fields (resolveTag cfg.tags t)
        (Entry.getattr? e (resolveTag cfg.tags t)) (Value.s v) = Except.ok vNew) :
    IterParser.handle cfg Option.none st (some t) (Value.s v) =
      Except.ok { st with
        entries := ys ++ [Entry.setattr e (resolveTag cfg.tags t) vNew],
        fields := addField st.fields (resolveTag cfg.tags t) } := by
  have hbs : boundaryStep cfg st (some t) = Except.ok st := by
    simp [boundaryStep, hs, he]
  have hfal : (pyFalsy (Value.s v) || pyTagFalsy (some t)) = false := by
    simp [pyFalsy, pyTagFalsy, hv, ht]
  have hnstep : normalizeStep cfg (Value.s v) = Value.s v := by
    simp [normalizeStep, hnorm]
  have hgl : st.entries.getLast? = some e := by
    rw [hys]; exact List.getLast?_concat _
  have hmf : mergeField cfg.concat_fields e (resolveTag cfg.tags t)
      (handlerStep cfg t (normalizeStep cfg (Value.s v))) =
      Except.ok (Entry.setattr e (resolveTag cfg.tags t) vNew) := by
    rw [hnstep]
    unfold handlerStep
    rw [hhdl]
    simp [mergeField, hmv]
  simp [IterParser.handle, hbs, hfal, filterDrop, hgl, hmf, hys,
    List.dropLast_concat]

/-- Concatenation-field run: starting from a string value `w`, the values
are joined in input order. -/
theorem c6_run_concat (cfg : IterCfg) (t : String)
    (hhdl : cfg.handler t = Option.none)
    (hs : cfg.is_start (some t) = false) (he : cfg.is_end (some t) = false)
    (ht : t ≠ "")
    (hc : cfg.concat_fields.contains (resolveTag cfg.tags t) = true) :
    ∀ (vs : List String) (w : String) (st : PState) (ys : List Entry) (e : Entry)
      (st' : PState),
    (∀ v ∈ vs, v ≠ "" ∧ removeCR (cfg.nfkd v) = v) →
    st.entries = ys ++ [e] →
    Entry.getattr? e (resolveTag cfg.tags t) = some (Value.s w) →
    IterParser.runLoop cfg Option.none (c6Events t vs) st = Except.ok st' →
    lastField st' (resolveTag cfg.tags t) = some (Value.s (joinSpace (w :: vs))) := by
  intro vs
  induction vs with
  | nil =>
      intro w st ys e st' _ hys hget hrun
      have hok : st' = st := by
        unfold c6Events IterParser.runLoop at hrun
        simp only [List.map_nil] at hrun
        exact (postprocess_ok_eq st st' hrun)
      subst hok
      unfold lastField
      rw [hys, List.getLast?_concat]
      show Entry.getattr? e (resolveTag cfg.tags t) = _
      rw [hget]
      rfl
  | cons v vs ih =>
      intro w st ys e st' hvs hys hget hrun
      have hv := hvs v (List.mem_cons_self v vs)
      have hcm : resolveTag cfg.tags t ∈ cfg.concat_fields := by simpa using hc
      have hmv : mergeValue cfg.concat_fields (resolveTag cfg.tags t)
          (Entry.getattr? e (resolveTag cfg.tags t)) (Value.s v) =
          Except.ok (Value.s (w ++ " " ++ v)) := by
        rw [hget]
        simp [mergeValue, hcm, pyStr]
      have hstep := c6_step cfg t v st ys e (Value.s (w ++ " " ++ v))
        hhdl hs he ht hv.1 hv.2 hys hmv
      unfold c6Events at hrun
      simp only [List.map_cons] at hrun
      unfold IterParser.runLoop at hrun
      rw [hstep] at hrun
      have := ih (w ++ " " ++ v)
        { st with
            entries := ys ++ [Entry.setattr e (resolveTag cfg.tags t) (Value.s (w ++ " " ++ v))],
            fields := addField st.fields (resolveTag cfg.tags t),
            lastTag := some t } ys
        (Entry.setattr e (resolveTag cfg.tags t) (Value.s (w ++ " " ++ v))) st'
        (fun x hx => hvs x (List.mem_cons_of_mem v hx)) rfl
        (Entry.getattr?_setattr_self _ _ _) hrun
      rw [this, joinSpace_cons_cons]

/-- List-promoted run: starting from a list value, the values are appended
in input order. -/
theorem c6_run_list (cfg : IterCfg) (t : String)
    (hhdl : cfg.handler t = Option.none)
    (hs : cfg.is_start (some t) = false) (he : cfg.is_end (some t) = false)
    (ht : t ≠ "")
    (hc : cfg.concat_fields.contains (resolveTag cfg.tags t) = false) :
    ∀ (vs : List String) (ws : List Value) (st : PState) (ys : List Entry)
      (e : Entry) (st' : PState),
    (∀ v ∈ vs, v ≠ "" ∧ removeCR (cfg.nfkd v) = v) →
    st.entries = ys ++ [e] →
    Entry.getattr? e (resolveTag cfg.tags t) = some (Value.list ws) →
    IterParser.runLoop cfg Option.none (c6Events t vs) st = Except.ok st' →
    lastField st' (resolveTag cfg.tags t) =
      some (Value.list (ws ++ vs.map Value.s)) := by
  intro vs
  induction vs with
  | nil =>
      intro ws st ys e st' _ hys hget hrun
      have hok : st' = st := by
        unfold c6Events IterParser.runLoop at hrun
        simp only [List.map_nil] at hrun
        exact (postprocess_ok_eq st st' hrun)
      subst hok
      unfold lastField
      rw [hys, List.getLast?_concat]
      show Entry.getattr? e (resolveTag cfg.tags t) = _
      rw [hget]
      simp
  | cons v vs ih =>
      intro ws st ys e st' hvs hys hget hrun
      have hv := hvs v (List.mem_cons_self v vs)
      have hcmem : resolveTag cfg.tags t ∉ cfg.concat_fields := by simpa using hc
      have hmv : mergeValue cfg.concat_fields (resolveTag cfg.tags t)
          (Entry.getattr? e (resolveTag cfg.tags t)) (Value.s v) =
          Except.ok (Value.list (ws ++ [Value.s v])) := by
        rw [hget]
        simp [mergeValue, hcmem]
      have hstep := c6_step cfg t v st ys e (Value.list (ws ++ [Value.s v]))
        hhdl hs he ht hv.1 hv.2 hys hmv
      unfold c6Events at hrun
      simp only [List.map_cons] at hrun
      unfold IterParser.runLoop at hrun
      rw [hstep] at hrun
      have := ih (ws ++ [Value.s v])
        { st with
            entries := ys ++ [Entry.setattr e (resolveTag cfg.tags t)
              (Value.list (ws ++ [Value.s v]))],
            fields := addField st.fields (resolveTag cfg.tags t),
            lastTag := some t } ys
        (Entry.setattr e (resolveTag cfg.tags t) (Value.list (ws ++ [Value.s v]))) st'
        (fun x hx => hvs x (List.mem_cons_of_mem v hx)) rfl
        (Entry.getattr?_setattr_self _ _ _) hrun
      rw [this]
      simp

/-- Scalar-start run: a non-empty scalar is kept alone (n = 1) or promoted
to a list and extended in input order. -/
theorem c6_run_scalar (cfg : IterCfg) (t : String)
    (hhdl : cfg.handler t = Option.none)
    (hs : cfg.is_start (some t) = false) (he : cfg.is_end (some t) = false)
    (ht : t ≠ "")
    (hc : cfg.concat_fields.contains (resolveTag cfg.tags t) = false) :
    ∀ (vs : List String) (w : String) (st : PState) (ys : List Entry) (e : Entry)
      (st' : PState),
    w ≠ "" →
    (∀ v ∈ vs, v ≠ "" ∧ removeCR (cfg.nfkd v) = v) →
    st.entries = ys ++ [e] →
    Entry.getattr? e (resolveTag cfg.tags t) = some (Value.s w) →
    IterParser.runLoop cfg Option.none (c6Events t vs) st = Except.ok st' →
    lastField st' (resolveTag cfg.tags t) =
      some (match vs with
            | [] => Value.s w
            | _ => Value.list ((w :: vs).map Value.s)) := by
  intro vs w st ys e st' hw hvs hys hget hrun
  cases vs with
  | nil =>
      have hok : st' = st := by
        unfold c6Events IterParser.runLoop at hrun
        simp only [List.map_nil] at hrun
        exact (postprocess_ok_eq st st' hrun)
      subst hok
      unfold lastField
      rw [hys, List.getLast?_concat]
      show Entry.getattr? e (resolveTag cfg.tags t) = _
      rw [hget]
  | cons v vs' =>
      have hv := hvs v (List.mem_cons_self v vs')
      have hcmem : resolveTag cfg.tags t ∉ cfg.concat_fields := by simpa using hc
      have hmv : mergeValue cfg.concat_fields (resolveTag cfg.tags t)
          (Entry.getattr? e (resolveTag cfg.tags t)) (Value.s v) =
          Except.ok (Value.list [Value.s w, Value.s v]) := by
        rw [hget]
        simp [mergeValue, hcmem, valueIsNoneOrEmpty, hw]
      have hstep := c6_step cfg t v st ys e (Value.list [Value.s w, Value.s v])
        hhdl hs he ht hv.1 hv.2 hys hmv
      unfold c6Events at hrun
      simp only [List.map_cons] at hrun
      unfold IterParser.runLoop at hrun
      rw [hstep] at hrun
      have := c6_run_list cfg t hhdl hs he ht hc vs' [Value.s w, Value.s v]
        { st with
            entries := ys ++ [Entry.setattr e (resolveTag cfg.tags t)
              (Value.list [Value.s w, Value.s v])],
            fields := addField st.fields (resolveTag cfg.tags t),
            lastTag := some t } ys
        (Entry.setattr e (resolveTag cfg.tags t) (Value.list [Value.s w, Value.s v])) st'
        (fun x hx => hvs x (List.mem_cons_of_mem v hx)) rfl
        (Entry.getattr?_setattr_self _ _ _) hrun
      rw [this]
      simp

/-- The merge-monotonicity run for the shared driver, from a state where the
field is still absent. -/
theorem c6_run_iter (cfg : IterCfg) (t : String)
    (hhdl : cfg.handler t = Option.none)
    (hs : cfg.is_start (some t) = false) (he : cfg.is_end (some t) = false)
    (ht : t ≠ "") :
    ∀ (vs : List String) (st : PState) (ys : List Entry) (e : Entry) (st' : PState),
    vs ≠ [] →
    (∀ v ∈ vs, v ≠ "" ∧ removeCR (cfg.nfkd v) = v) →
    st.entries = ys ++ [e] →
    Entry.getattr? e (resolveTag cfg.tags t) = Option.none →
    IterParser.runLoop cfg Option.none (c6Events t vs) st = Except.ok st' →
    lastField st' (resolveTag cfg.tags t) =
      some (c6Expected cfg.concat_fields (resolveTag cfg.tags t) vs) := by
  intro vs st ys e st' hvne hvs hys hget hrun
  cases vs with
  | nil => exact absurd rfl hvne
  | cons v vs' =>
      have hv := hvs v (List.mem_cons_self v vs')
      have hmv : mergeValue cfg.concat_fields (resolveTag cfg.tags t)
          (Entry.getattr? e (resolveTag cfg.tags t)) (Value.s v) =
          Except.ok (Value.s v) := by
        rw [hget]
        simp [mergeValue]
      have hstep := c6_step cfg t v st ys e (Value.s v)
        hhdl hs he ht hv.1 hv.2 hys hmv
      unfold c6Events at hrun
      simp only [List.map_cons] at hrun
      unfold IterParser.runLoop at hrun
      rw [hstep] at hrun
      by_cases hc : cfg.concat_fields.contains (resolveTag cfg.tags t) = true
      · have := c6_run_concat cfg t hhdl hs he ht hc vs' v
          { st with
              entries := ys ++ [Entry.setattr e (resolveTag cfg.tags t) (Value.s v)],
              fields := addField st.fields (resolveTag cfg.tags t),
              lastTag := some t } ys
          (Entry.setattr e (resolveTag cfg.tags t) (Value.s v)) st'
          (fun x hx => hvs x (List.mem_cons_of_mem v hx)) rfl
          (Entry.getattr?_setattr_self _ _ _) hrun
        rw [this]
        unfold c6Expected
        rw [if_pos hc]
      · have hc' : cfg.concat_fields.contains (resolveTag cfg.tags t) = false := by
          simpa using hc
        have := c6_run_scalar cfg t hhdl hs he ht hc' vs' v
          { st with
              entries := ys ++ [Entry.setattr e (resolveTag cfg.tags t) (Value.s v)],
              fields := addField st.fields (resolveTag cfg.tags t),
              lastTag := some t } ys
          (Entry.setattr e (resolveTag cfg.tags t) (Value.s v)) st'
          hv.1 (fun x hx => hvs x (List.mem_cons_of_mem v hx)) rfl
          (Entry.getattr?_setattr_self _ _ _) hrun
        rw [this]
        unfold c6Expected
        rw [if_neg hc]
        cases vs' <;> rfl

/-- One RDF step under the C6 hypotheses. -/
theorem c6_rdf_step (cfg : RDFCfg) (t v : String) (st : PState) (ys : List Entry)
    (e : Entry) (vNew : Value)
    (hhdl : cfg.handler t = Option.none)
    (hys : st.entries = ys ++ [e])
    (hmv : RDFParser.mergeValue cfg.concat_fields (resolveTag cfg.tags t)
        (Entry.getattr? e (resolveTag cfg.tags t)) (Value.s v) = Except.ok vNew) :
    RDFParser.handle cfg st t (Value.s v) =
      Except.ok { st with
        entries := ys ++ [Entry.setattr e (resolveTag cfg.tags t) vNew],
        fields := addField st.fields (resolveTag cfg.tags t) } := by
  have hgl : st.entries.getLast? = some e := by
    rw [hys]; exact List.getLast?_concat _
  have hd : rdfHandlerStep cfg t (Value.s v) = Value.s v := by
    simp [rdfHandlerStep, hhdl]
  simp [RDFParser.handle, hd, hgl, hmv, hys, List.dropLast_concat]

/-- RDF concatenation-field run. -/
theorem c6_rdf_run_concat (cfg : RDFCfg) (t : String)
    (hhdl : cfg.handler t = Option.none)
    (hc : cfg.concat_fields.contains (resolveTag cfg.tags t) = true) :
    ∀ (vs : List String) (w : String) (st : PState) (ys : List Entry) (e : Entry)
      (st' : PState),
    st.entries = ys ++ [e] →
    Entry.getattr? e (resolveTag cfg.tags t) = some (Value.s w) →
    vs.foldlM (fun st v => RDFParser.handle cfg st t (Value.s v)) st = Except.ok st' →
    lastField st' (resolveTag cfg.tags t) = some (Value.s (joinSpace (w :: vs))) := by
  intro vs
  induction vs with
  | nil =>
      intro w st ys e st' hys hget hrun
      have hok : st' = st := (Except.ok.inj hrun).symm
      subst hok
      unfold lastField
      rw [hys, List.getLast?_concat]
      show Entry.getattr? e (resolveTag cfg.tags t) = _
      rw [hget]
      rfl
  | cons v vs ih =>
      intro w st ys e st' hys hget hrun
      have hcm : resolveTag cfg.tags t ∈ cfg.concat_fields := by simpa using hc
      have hmv : RDFParser.mergeValue cfg.concat_fields (resolveTag cfg.tags t)
          (Entry.getattr? e (resolveTag cfg.tags t)) (Value.s v) =
          Except.ok (Value.s (w ++ " " ++ v)) := by
        rw [hget]
        simp [RDFParser.mergeValue, hcm]
      have hstep := c6_rdf_step cfg t v st ys e (Value.s (w ++ " " ++ v)) hhdl hys hmv
      rw [List.foldlM_cons, hstep] at hrun
      have := ih (w ++ " " ++ v)
        { st with
            entries := ys ++ [Entry.setattr e (resolveTag cfg.tags t) (Value.s (w ++ " " ++ v))],
            fields := addField st.fields (resolveTag cfg.tags t) } ys
        (Entry.setattr e (resolveTag cfg.tags t) (Value.s (w ++ " " ++ v))) st'
        rfl (Entry.getattr?_setattr_self _ _ _) hrun
      rw [this, joinSpace_cons_cons]

/-- RDF list-promoted run. -/
theorem c6_rdf_run_list (cfg : RDFCfg) (t : String)
    (hhdl : cfg.handler t = Option.none)
    (hc : cfg.concat_fields.contains (resolveTag cfg.tags t) = false) :
    ∀ (vs : List String) (ws : List Value) (st : PState) (ys : List Entry)
      (e : Entry) (st' : PState),
    st.entries = ys ++ [e] →
    Entry.getattr? e (resolveTag cfg.tags t) = some (Value.list ws) →
    vs.foldlM (fun st v => RDFParser.handle cfg st t (Value.s v)) st = Except.ok st' →
    lastField st' (resolveTag cfg.tags t) =
      some (Value.list (ws ++ vs.map Value.s)) := by
  intro vs
  induction vs with
  | nil =>
      intro ws st ys e st' hys hget hrun
      have hok : st' = st := (Except.ok.inj hrun).symm
      subst hok
      unfold lastField
      rw [hys, List.getLast?_concat]
      show Entry.getattr? e (resolveTag cfg.tags t) = _
      rw [hget]
      simp
  | cons v vs ih =>
      intro ws st ys e st' hys hget hrun
      have hcmem : resolveTag cfg.tags t ∉ cfg.concat_fields := by simpa using hc
      have hmv : RDFParser.mergeValue cfg.concat_fields (resolveTag cfg.tags t)
          (Entry.getattr? e (resolveTag cfg.tags t)) (Value.s v) =
          Except.ok (Value.list (ws ++ [Value.s v])) := by
        rw [hget]
        simp [RDFParser.mergeValue, hcmem]
      have hstep := c6_rdf_step cfg t v st ys e (Value.list (ws ++ [Value.s v])) hhdl hys hmv
      rw [List.foldlM_cons, hstep] at hrun
      have := ih (ws ++ [Value.s v])
        { st with
            entries := ys ++ [Entry.setattr e (resolveTag cfg.tags t)
              (Value.list (ws ++ [Value.s v]))],
            fields := addField st.fields (resolveTag cfg.tags t) } ys
        (Entry.setattr e (resolveTag cfg.tags t) (Value.list (ws ++ [Value.s v]))) st'
        rfl (Entry.getattr?_setattr_self _ _ _) hrun
      rw [this]
      simp

/-- RDF scalar-start run. -/
theorem c6_rdf_run_scalar (cfg : RDFCfg) (t : String)
    (hhdl : cfg.handler t = Option.none)
    (hc : cfg.concat_fields.contains (resolveTag cfg.tags t) = false) :
    ∀ (vs : List String) (w : String) (st : PState) (ys : List Entry) (e : Entry)
      (st' : PState),
    w ≠ "" →
    st.entries = ys ++ [e] →
    Entry.getattr? e (resolveTag cfg.tags t) = some (Value.s w) →
    vs.foldlM (fun st v => RDFParser.handle cfg st t (Value.s v)) st = Except.ok st' →
    lastField st' (resolveTag cfg.tags t) =
      some (match vs with
            | [] => Value.s w
            | _ => Value.list ((w :: vs).map Value.s)) := by
  intro vs w st ys e st' hw hys hget hrun
  cases vs with
  | nil =>
      have hok : st' = st := (Except.ok.inj hrun).symm
      subst hok
      unfold lastField
      rw [hys, List.getLast?_concat]
      show Entry.getattr? e (resolveTag cfg.tags t) = _
      rw [hget]
  | cons v vs' =>
      have hcmem : resolveTag cfg.tags t ∉ cfg.concat_fields := by simpa using hc
      have hmv : RDFParser.mergeValue cfg.concat_fields (resolveTag cfg.tags t)
          (Entry.getattr? e (resolveTag cfg.tags t)) (Value.s v) =
          Except.ok (Value.list [Value.s w, Value.s v]) := by
        rw [hget]
        simp [RDFParser.mergeValue, hcmem, valueIsNoneOrEmpty, hw]
      have hstep := c6_rdf_step cfg t v st ys e (Value.list [Value.s w, Value.s v]) hhdl hys hmv
      rw [List.foldlM_cons, hstep] at hrun
      have := c6_rdf_run_list cfg t hhdl hc vs' [Value.s w, Value.s v]
        { st with
            entries := ys ++ [Entry.setattr e (resolveTag cfg.tags t)
              (Value.list [Value.s w, Value.s v])],
            fields := addField st.fields (resolveTag cfg.tags t) } ys
        (Entry.setattr e (resolveTag cfg.tags t) (Value.list [Value.s w, Value.s v])) st'
        rfl (Entry.getattr?_setattr_self _ _ _) hrun
      rw [this]
      simp

/-- The merge-monotonicity run for `RDFParser.parseEntry` on a subject whose
triples carry the n occurrences in graph order. -/
theorem c6_run_rdf (cfg : RDFCfg) (subj p t : String) (vs : List String)
    (st st' : PState)
    (hme : cfg.meta_elements = [(t, p)])
    (hhdl : cfg.handler t = Option.none)
    (hvne : vs ≠ []) (hvs : ∀ v ∈ vs, v ≠ "")
    (hrun : RDFParser.parseEntry cfg (vs.map (fun v => (subj, p, Value.s v))) subj st =
      Except.ok st') :
    lastField st' (resolveTag cfg.tags t) =
      some (c6Expected cfg.concat_fields (resolveTag cfg.tags t) vs) := by
  unfold RDFParser.parseEntry at hrun
  have hfilter : ((vs.map (fun v => (subj, p, Value.s v))).filter
      (fun tr => tr.1 == subj)) = vs.map (fun v => (subj, p, Value.s v)) := by
    rw [List.filter_eq_self]
    intro tr htr
    obtain ⟨v, _, hv⟩ := List.mem_map.mp htr
    rw [← hv]
    simp
  rw [hfilter, List.foldlM_map] at hrun
  have hfun : (fun (st : PState) (v : String) =>
      match cfg.meta_elements.find? (fun me => me.2 == (subj, p, Value.s v).2.1) with
      | some me => RDFParser.handle cfg st me.1 (subj, p, Value.s v).2.2
      | Option.none => Except.ok st) =
      fun st v => RDFParser.handle cfg st t (Value.s v) := by
    funext st0 v
    rw [hme]
    simp
  rw [hfun] at hrun
  cases hfold : vs.foldlM (fun st v => RDFParser.handle cfg st t (Value.s v))
      (BaseParser.new_entry st) with
  | error e => rw [hfold] at hrun; cases hrun
  | ok stf =>
      rw [hfold] at hrun
      have hstf : st' = stf := postprocess_ok_eq stf st' hrun
      subst hstf
      cases vs with
      | nil => exact absurd rfl hvne
      | cons v vs' =>
          have hv : v ≠ "" := hvs v (List.mem_cons_self v vs')
          have hmv : RDFParser.mergeValue cfg.concat_fields (resolveTag cfg.tags t)
              (Entry.getattr? ([] : Entry) (resolveTag cfg.tags t)) (Value.s v) =
              Except.ok (Value.s v) := by
            simp [RDFParser.mergeValue, Entry.getattr?]
          have hstep := c6_rdf_step cfg t v (BaseParser.new_entry st) st.entries []
            (Value.s v) hhdl rfl hmv
          rw [List.foldlM_cons, hstep] at hfold
          by_cases hcb : cfg.concat_fields.contains (resolveTag cfg.tags t) = true
          · have := c6_rdf_run_concat cfg t hhdl hcb vs' v
              { BaseParser.new_entry st with
                  entries := st.entries ++ [Entry.setattr [] (resolveTag cfg.tags t) (Value.s v)],
                  fields := addField (BaseParser.new_entry st).fields (resolveTag cfg.tags t) }
              st.entries (Entry.setattr [] (resolveTag cfg.tags t) (Value.s v)) st'
              rfl (Entry.getattr?_setattr_self _ _ _) hfold
            rw [this]
            unfold c6Expected
            rw [if_pos hcb]
          · have hc' : cfg.concat_fields.contains (resolveTag cfg.tags t) = false := by
              simpa using hcb
            have := c6_rdf_run_scalar cfg t hhdl hc' vs' v
              { BaseParser.new_entry st with
                  entries := st.entries ++ [Entry.setattr [] (resolveTag cfg.tags t) (Value.s v)],
                  fields := addField (BaseParser.new_entry st).fields (resolveTag cfg.tags t) }
              st.entries (Entry.setattr [] (resolveTag cfg.tags t) (Value.s v)) st'
              hv rfl (Entry.getattr?_setattr_self _ _ _) hfold
            rw [this]
            unfold c6Expected
            rw [if_neg hcb]
            cases vs' <;> rfl

/-- C6: merge monotonicity.  For a field receiving n occurrences with
non-empty (normalization-stable) string values `v1, ..., vn` in input order
within one Entry: the shared driver (first conjunct) and the RDF backend
(second conjunct) finalize the field to the single string of the values
joined by the separator in input order (concatenation field), the scalar
`v1` (n = 1), or the n-length ordered list — never reordered. -/
theorem c6_merge_monotonic :
    (∀ (cfg : IterCfg) (t : String) (vs : List String) (st : PState)
        (ys : List Entry) (e : Entry) (st' : PState),
      cfg.handler t = Option.none →
      cfg.is_start (some t) = false → cfg.is_end (some t) = false → t ≠ "" →
      vs ≠ [] →
      (∀ v ∈ vs, v ≠ "" ∧ removeCR (cfg.nfkd v) = v) →
      st.entries = ys ++ [e] →
      Entry.getattr? e (resolveTag cfg.tags t) = Option.none →
      IterParser.runLoop cfg Option.none (c6Events t vs) st = Except.ok st' →
      lastField st' (resolveTag cfg.tags t) =
        some (c6Expected cfg.concat_fields (resolveTag cfg.tags t) vs))
    ∧ (∀ (cfg : RDFCfg) (subj p t : String) (vs : List String) (st st' : PState),
      cfg.meta_elements = [(t, p)] →
      cfg.handler t = Option.none →
      vs ≠ [] → (∀ v ∈ vs, v ≠ "") →
      RDFParser.parseEntry cfg (vs.map (fun v => (subj, p, Value.s v))) subj st =
        Except.ok st' →
      lastField st' (resolveTag cfg.tags t) =
        some (c6Expected cfg.concat_fields (resolveTag cfg.tags t) vs)) := by
  constructor
  · intro cfg t vs st ys e st' hhdl hs he ht hvne hvs hys hget hrun
    exact c6_run_iter cfg t hhdl hs he ht vs st ys e st' hvne hvs hys hget hrun
  · intro cfg subj p t vs st st' hme hhdl hvne hvs hrun
    exact c6_run_rdf cfg subj p t vs st st' hme hhdl hvne hvs hrun

/-- C6 witness: two occurrences of `AU` under the driver yield the ordered
two-element list; two occurrences of the RDF concatenation field `date`
yield the joined string. -/
theorem c6_witness :
    lastField
        (PState.mk [[("authors", Value.list [Value.s "a", Value.s "b"])]]
          ["authors"] (some "AU")) "authors" =
        some (c6Expected cfgAuthors.concat_fields "authors" ["a", "b"])
      ∧ lastField
          (PState.mk [[("date", Value.s "x y")]] ["date"] Option.none) "date" =
          some (c6Expected cfgRdfDate.concat_fields "date" ["x", "y"]) :=
  ⟨c6_merge_monotonic.1 cfgAuthors "AU" ["a", "b"] initState [] [] _
      rfl rfl rfl (by decide) (by decide) (by decide) rfl rfl rfl,
   c6_merge_monotonic.2 cfgRdfDate "doc1" "pDate" "date" ["x", "y"]
      (PState.mk [] [] Option.none) _ rfl rfl (by decide) (by decide) rfl⟩

/-! ## C4 — selective-parse equivalence -/

theorem getElem?_concat_cases (l : List Entry) (x : Entry) (i : Nat) :
    (l ++ [x])[i]? =
      if i < l.length then l[i]?
      else if i = l.length then some x else Option.none := by
  by_cases h1 : i < l.length
  · rw [if_pos h1]
    exact List.getElem?_append_left h1
  · rw [if_neg h1]
    have hge : l.length ≤ i := Nat.le_of_not_lt h1
    rw [List.getElem?_append_right hge]
    by_cases h2 : i = l.length
    · rw [if_pos h2, h2]
      simp
    · rw [if_neg h2]
      have h3 : i - l.length ≠ 0 := by omega
      cases hk : i - l.length with
      | zero => exact absurd hk h3
      | succ n => simp

theorem entriesFEq_new_entry (F : String) (a b : List Entry)
    (h : entriesFEq F a b) : entriesFEq F (a ++ [[]]) (b ++ [[]]) := by
  obtain ⟨hlen, _, _, hpt⟩ := h
  refine ⟨by simp [hlen], by simp, by simp, ?_⟩
  intro i
  rw [getElem?_concat_cases, getElem?_concat_cases]
  rw [hlen]
  by_cases h1 : i < b.length
  · rw [if_pos h1, if_pos h1]
    exact hpt i
  · rw [if_neg h1, if_neg h1]

theorem entriesFEq_getLast (F : String) (ys1 : List Entry) (e1 : Entry)
    (b : List Entry) (h : entriesFEq F (ys1 ++ [e1]) b) :
    ∃ ys2 e2, b = ys2 ++ [e2] ∧ ys1.length = ys2.length ∧
      Entry.getattr? e1 F = Entry.getattr? e2 F := by
  obtain ⟨hlen, _, hbne, hpt⟩ := h
  obtain ⟨e2, hgl⟩ := Option.isSome_iff_exists.mp
    (by rw [List.getLast?_isSome]; exact hbne)
  obtain ⟨ys2, hys2⟩ := List.getLast?_eq_some_iff.mp hgl
  subst hys2
  have hl : ys1.length = ys2.length := by
    simp at hlen
    omega
  refine ⟨ys2, e2, rfl, hl, ?_⟩
  have := hpt ys1.length
  rw [getElem?_concat_cases, getElem?_concat_cases] at this
  rw [if_neg (by omega), if_pos rfl, hl, if_neg (by omega), if_pos rfl] at this
  simpa using this

/-- Updating the last entry on both sides at a field other than `F`, or at
`F` with the same value, preserves the invariant. -/
theorem entriesFEq_set_last (F r : String) (ys1 ys2 : List Entry)
    (e1 e2 : Entry) (v1 v2 : Value)
    (h : entriesFEq F (ys1 ++ [e1]) (ys2 ++ [e2]))
    (hlen : ys1.length = ys2.length)
    (hv : r ≠ F ∨ v1 = v2) :
    entriesFEq F (ys1 ++ [Entry.setattr e1 r v1]) (ys2 ++ [Entry.setattr e2 r v2]) := by
  obtain ⟨hl, _, _, hpt⟩ := h
  refine ⟨by simp [hlen], by simp, by simp, ?_⟩
  intro i
  rw [getElem?_concat_cases, getElem?_concat_cases]
  by_cases h1 : i < ys1.length
  · have h1' : i < ys2.length := by omega
    rw [if_pos h1, if_pos h1']
    have := hpt i
    rw [getElem?_concat_cases, getElem?_concat_cases, if_pos h1, if_pos h1'] at this
    exact this
  · have h1' : ¬ i < ys2.length := by omega
    by_cases h2 : i = ys1.length
    · have h2' : i = ys2.length := by omega
      rw [if_neg h1, if_neg h1', if_pos h2, if_pos h2']
      have hlast := hpt ys1.length
      rw [getElem?_concat_cases, getElem?_concat_cases] at hlast
      rw [if_neg (by omega : ¬ ys1.length < ys1.length), if_pos rfl] at hlast
      rw [if_neg (by omega : ¬ ys1.length < ys2.length),
        if_pos (by omega : ys1.length = ys2.length)] at hlast
      have he12 : Entry.getattr? e1 F = Entry.getattr? e2 F := by
        simpa using hlast
      cases hv with
      | inl hne =>
          simp only [Option.map_some']
          rw [Entry.getattr?_setattr_ne _ _ _ _ (Ne.symm hne),
            Entry.getattr?_setattr_ne _ _ _ _ (Ne.symm hne), he12]
      | inr heq =>
          subst heq
          by_cases hrF : r = F
          · subst hrF
            simp only [Option.map_some']
            rw [Entry.getattr?_setattr_self, Entry.getattr?_setattr_self]
          · simp only [Option.map_some']
            rw [Entry.getattr?_setattr_ne _ _ _ _ (Ne.symm hrF),
              Entry.getattr?_setattr_ne _ _ _ _ (Ne.symm hrF), he12]
    · have h2' : ¬ i = ys2.length := by omega
      rw [if_neg h1, if_neg h1', if_neg h2, if_neg h2']

/-- Updating only the left (unrestricted) run's last entry at a field other
than `F` preserves the invariant. -/
theorem entriesFEq_set_last_left (F r : String) (ys1 : List Entry)
    (e1 : Entry) (v1 : Value) (b : List Entry)
    (h : entriesFEq F (ys1 ++ [e1]) b) (hne : r ≠ F) :
    entriesFEq F (ys1 ++ [Entry.setattr e1 r v1]) b := by
  obtain ⟨hl, _, hbne, hpt⟩ := h
  refine ⟨by simpa using hl, by simp, hbne, ?_⟩
  intro i
  rw [getElem?_concat_cases]
  have hpi := hpt i
  rw [getElem?_concat_cases] at hpi
  by_cases h1 : i < ys1.length
  · rw [if_pos h1]
    rw [if_pos h1] at hpi
    exact hpi
  · rw [if_neg h1]
    rw [if_neg h1] at hpi
    by_cases h2 : i = ys1.length
    · rw [if_pos h2]
      rw [if_pos h2] at hpi
      simp only [Option.map_some'] at hpi ⊢
      rw [Entry.getattr?_setattr_ne _ _ _ _ (Ne.symm hne)]
      exact hpi
    · rw [if_neg h2]
      rw [if_neg h2] at hpi
      exact hpi

/-- Coupling step: handling one (tag, data) pair in the unrestricted run and
in the restricted run (with a non-empty computed subset covering every raw
tag that resolves to `F`) preserves the invariant. -/
theorem c4_handle_step (cfg : IterCfg) (F : String) (po : List String)
    (st1 st2 st1' st2' : PState) (tag : Option String) (d : Value)
    (hev : ∀ t, tag = some t → resolveTag cfg.tags t = F → po.contains t = true)
    (h1 : IterParser.handle cfg Option.none st1 tag d = Except.ok st1')
    (h2 : IterParser.handle cfg (some po) st2 tag d = Except.ok st2')
    (hfe : entriesFEq F st1.entries st2.entries) :
    entriesFEq F st1'.entries st2'.entries := by
  unfold IterParser.handle at h1 h2
  split at h1
  · cases h1
  · rename_i stb1 hb1
    split at h2
    · cases h2
    · rename_i stb2 hb2
      have hstb1 := boundaryStep_ok_start cfg st1 tag stb1 hb1
      have hstb2 := boundaryStep_ok_start cfg st2 tag stb2 hb2
      have hfeb : entriesFEq F stb1.entries stb2.entries := by
        by_cases hs : cfg.is_start tag = true
        · rw [if_pos hs] at hstb1 hstb2
          subst hstb1
          subst hstb2
          exact entriesFEq_new_entry F st1.entries st2.entries hfe
        · rw [if_neg hs] at hstb1 hstb2
          subst hstb1
          subst hstb2
          exact hfe
      by_cases hfal : (pyFalsy d || pyTagFalsy tag) = true
      · rw [if_pos hfal] at h1 h2
        have e1 := (Except.ok.inj h1)
        have e2 := (Except.ok.inj h2)
        rw [← e1, ← e2]
        exact hfeb
      · rw [if_neg hfal] at h1 h2
        cases tag with
        | none =>
            exact absurd (by simp [pyTagFalsy]) hfal
        | some t =>
            simp only [] at h1 h2
            rw [if_neg (by simp [filterDrop] : ¬ filterDrop Option.none t = true)] at h1
            split at h1
            · cases h1
            · rename_i e1 hl1
              split at h1
              · cases h1
              · rename_i e1' hm1
                have hst1' := (Except.ok.inj h1).symm
                subst hst1'
                obtain ⟨ys1, hys1⟩ := List.getLast?_eq_some_iff.mp hl1
                obtain ⟨v1, hmv1, he1'⟩ := mergeField_ok_form _ _ _ _ _ hm1
                subst he1'
                by_cases hfd : filterDrop (some po) t = true
                · -- the restricted run drops the pair; the resolved field is not F
                  rw [if_pos hfd] at h2
                  have hst2' : st2' = stb2 := (Except.ok.inj h2).symm
                  subst hst2'
                  have hrF : resolveTag cfg.tags t ≠ F := by
                    intro hrf
                    have hcont := hev t rfl hrf
                    simp [filterDrop] at hfd
                    exact hfd.2 (by simpa using hcont)
                  show entriesFEq F
                    (stb1.entries.dropLast ++
                      [Entry.setattr e1 (resolveTag cfg.tags t) v1]) st2'.entries
                  rw [hys1, List.dropLast_concat]
                  exact entriesFEq_set_last_left F _ ys1 e1 v1 st2'.entries
                    (by rw [← hys1]; exact hfeb) hrF
                · -- both runs merge the same transformed data
                  rw [if_neg hfd] at h2
                  split at h2
                  · cases h2
                  · rename_i e2 hl2
                    split at h2
                    · cases h2
                    · rename_i e2' hm2
                      have hst2' := (Except.ok.inj h2).symm
                      subst hst2'
                      obtain ⟨ys2, hys2⟩ := List.getLast?_eq_some_iff.mp hl2
                      obtain ⟨v2, hmv2, he2'⟩ := mergeField_ok_form _ _ _ _ _ hm2
                      subst he2'
                      have hfeb' : entriesFEq F (ys1 ++ [e1]) (ys2 ++ [e2]) := by
                        rw [← hys1, ← hys2]; exact hfeb
                      have hlen12 : ys1.length = ys2.length := by
                        have := hfeb'.1
                        simp at this
                        omega
                      have hv : resolveTag cfg.tags t ≠ F ∨ v1 = v2 := by
                        by_cases hrF : resolveTag cfg.tags t = F
                        · right
                          obtain ⟨ys2'', e2'', hb, _, heF⟩ :=
                            entriesFEq_getLast F ys1 e1 (ys2 ++ [e2]) hfeb'
                          have he22 : e2'' = e2 := by
                            have h1' : (ys2 ++ [e2]).getLast? = some e2 :=
                              List.getLast?_concat ys2
                            rw [hb, List.getLast?_concat] at h1'
                            exact (Option.some.inj h1')
                          rw [hrF] at hmv1 hmv2
                          rw [heF, he22] at hmv1
                          rw [hmv1] at hmv2
                          exact (Except.ok.inj hmv2)
                        · left; exact hrF
                      show entriesFEq F
                        (stb1.entries.dropLast ++
                          [Entry.setattr e1 (resolveTag cfg.tags t) v1])
                        (stb2.entries.dropLast ++
                          [Entry.setattr e2 (resolveTag cfg.tags t) v2])
                      rw [hys1, hys2, List.dropLast_concat, List.dropLast_concat]
                      exact entriesFEq_set_last F _ ys1 ys2 e1 e2 v1 v2 hfeb' hlen12 hv

/-- The coupling invariant carried through the main loop. -/
theorem c4_runLoop (cfg : IterCfg) (F : String) (po : List String) :
    ∀ (events : List (Option String × Value)) (st1 st2 st1' st2' : PState),
    (∀ ev ∈ events, ∀ t, ev.1 = some t → resolveTag cfg.tags t = F →
        po.contains t = true) →
    IterParser.runLoop cfg Option.none events st1 = Except.ok st1' →
    IterParser.runLoop cfg (some po) events st2 = Except.ok st2' →
    entriesFEq F st1.entries st2.entries →
    entriesFEq F st1'.entries st2'.entries := by
  intro events
  induction events with
  | nil =>
      intro st1 st2 st1' st2' _ h1 h2 hfe
      rw [postprocess_ok_eq st1 st1' h1, postprocess_ok_eq st2 st2' h2]
      exact hfe
  | cons ev rest ih =>
      intro st1 st2 st1' st2' hev h1 h2 hfe
      obtain ⟨tag, d⟩ := ev
      unfold IterParser.runLoop at h1 h2
      cases hh1 : IterParser.handle cfg Option.none st1 tag d with
      | error e => rw [hh1] at h1; cases h1
      | ok stm1 =>
          rw [hh1] at h1
          cases hh2 : IterParser.handle cfg (some po) st2 tag d with
          | error e => rw [hh2] at h2; cases h2
          | ok stm2 =>
              rw [hh2] at h2
              have hstep := c4_handle_step cfg F po st1 st2 stm1 stm2 tag d
                (fun t ht => hev (tag, d) (List.mem_cons_self _ _) t ht) hh1 hh2 hfe
              exact ih { stm1 with lastTag := tag } { stm2 with lastTag := tag }
                st1' st2'
                (fun e he t ht => hev e (List.mem_cons_of_mem _ he) t ht)
                h1 h2 hstep

/-- C4 (amended): selective-parse equivalence holds for every requested
field name F whose raw tags are all kept by the computed subset — in
particular whenever at most one raw tag renames to F.  For every input on
which both runs complete, each Entry of the restricted parse carries the
same value of F as the corresponding Entry of the unrestricted parse, and
the Entry counts agree.  (When several raw tags rename to F, the inverted
registry keeps only the last one and the equivalence fails, see the
counterexample.) -/
theorem c4_selective_equiv (cfg : IterCfg) (S : List String) (F : String)
    (events : List (Option String × Value)) (es es' : List Entry)
    (hF : F ∈ S)
    (hpo : computeParseOnly cfg.tags S ≠ [])
    (hev : ∀ ev ∈ events, ∀ t, ev.1 = some t → resolveTag cfg.tags t = F →
        (computeParseOnly cfg.tags S).contains t = true)
    (h1 : IterParser.parse cfg Option.none events = Except.ok es)
    (h2 : IterParser.parse cfg (some S) events = Except.ok es') :
    es'.length = es.length ∧
    ∀ i : Nat, (es[i]?).map (fun e => Entry.getattr? e F) =
      (es'[i]?).map (fun e => Entry.getattr? e F) := by
  have hS : S ≠ [] := by
    intro hs
    rw [hs] at hpo
    exact hpo rfl
  have hattr : parseOnlyAttr cfg.tags (some S) =
      some (computeParseOnly cfg.tags S) := by
    show (if S ≠ [] then some (computeParseOnly cfg.tags S) else Option.none) = _
    rw [if_pos hS]
  unfold IterParser.parse at h1 h2
  rw [hattr] at h2
  cases hr1 : IterParser.runLoop cfg (parseOnlyAttr cfg.tags Option.none)
      events initState with
  | error e => rw [hr1] at h1; cases h1
  | ok stf1 =>
      rw [hr1] at h1
      cases hr2 : IterParser.runLoop cfg (some (computeParseOnly cfg.tags S))
          events initState with
      | error e => rw [hr2] at h2; cases h2
      | ok stf2 =>
          rw [hr2] at h2
          have hes : es = stf1.entries := (Except.ok.inj h1).symm
          have hes' : es' = stf2.entries := (Except.ok.inj h2).symm
          subst hes
          subst hes'
          have hinit : entriesFEq F initState.entries initState.entries :=
            ⟨rfl, by simp [initState], by simp [initState], fun i => rfl⟩
          have := c4_runLoop cfg F (computeParseOnly cfg.tags S) events
            initState initState stf1 stf2 hev hr1 hr2 hinit
          exact ⟨this.1.symm, this.2.2.2⟩

/-- C4 counterexample: two raw tags `T1` and `T2` both rename to the
canonical name `title`; the inverted registry keeps only `T2`, so the
restricted parse drops the `T1` pair and `title` ends up `'b'` instead of
the full parse's ordered list `['a', 'b']`. -/
theorem c4_counterexample :
    IterParser.parse cfgTwoTitleTags Option.none
        [(some "T1", Value.s "a"), (some "T2", Value.s "b")] =
      Except.ok [[("title", Value.list [Value.s "a", Value.s "b"])]]
    ∧ IterParser.parse cfgTwoTitleTags (some ["title"])
        [(some "T1", Value.s "a"), (some "T2", Value.s "b")] =
      Except.ok [[("title", Value.s "b")]]
    ∧ Entry.getattr? [("title", Value.list [Value.s "a", Value.s "b"])] "title" ≠
      Entry.getattr? [("title", Value.s "b")] "title" := by
  refine ⟨rfl, rfl, ?_⟩
  simp [Entry.getattr?]

/-- C4 witness: a single registry entry `AU → authors`, `S = {authors}` —
the restricted parse agrees with the full parse on `authors`. -/
theorem c4_witness :
    ([[("authors", Value.s "x")]] : List Entry).length =
        ([[("authors", Value.s "x")]] : List Entry).length
      ∧ (([[("authors", Value.s "x")]] : List Entry)[0]?).map
            (fun e => Entry.getattr? e "authors") =
          (([[("authors", Value.s "x")]] : List Entry)[0]?).map
            (fun e => Entry.getattr? e "authors") :=
  ⟨(c4_selective_equiv cfgAuthors ["authors"] "authors"
      [(some "AU", Value.s "x")] [[("authors", Value.s "x")]]
      [[("authors", Value.s "x")]] (by simp) (by decide) (by decide) rfl rfl).1,
   (c4_selective_equiv cfgAuthors ["authors"] "authors"
      [(some "AU", Value.s "x")] [[("authors", Value.s "x")]]
      [[("authors", Value.s "x")]] (by simp) (by decide) (by decide) rfl rfl).2 0⟩
